import Mathlib

/-!
Verification development for a Rijndael/AES block-cipher engine.

The repository wraps the rijndael-alg-fst reference cipher behind a small C
binding stub (src/native/stub.c).  The stub (buffer layout, Nr byte at a fixed
offset, 16-byte block reads and writes at caller offsets) is translated here
directly; the cipher routines declared in rijndael-alg-fst.h and the
schedule-deriving API with its error taxonomy are not part of the visible
sources and are modelled from the specification: key expansion over 32-bit
words, the forward and equivalent-inverse round functions on a 4x4
column-major byte state, and the InvalidKeySize / WrongScheduleOrientation /
InvalidBlockLength errors.  Bytes are Nat values below 256; blocks are lists
of 16 bytes; words are lists of 4 bytes in standard (most significant first)
order.
-/

set_option maxRecDepth 2000

namespace Rijndael

/-- Multiplication by x in GF(2^8) modulo the Rijndael polynomial
x^8+x^4+x^3+x+1 (0x11b): shift left and conditionally reduce. -/
def xtime (b : Nat) : Nat :=
  if b < 128 then 2 * b else (2 * b % 256) ^^^ 27

/-- Fuel-indexed GF(2^8) product accumulator: scans the bits of `a`,
doubling `b` via `xtime` at each step. -/
def gmulAux : Nat → Nat → Nat → Nat
  | 0, _, _ => 0
  | n + 1, a, b =>
    (if a % 2 = 1 then b else 0) ^^^ gmulAux n (a / 2) (xtime b)

/-- GF(2^8) multiplication modulo the Rijndael polynomial. -/
def gmul (a b : Nat) : Nat := gmulAux 8 a b

/-- Left rotation of an 8-bit value by `n` places. -/
def rotl8 (b n : Nat) : Nat := ((b <<< n) ||| (b >>> (8 - n))) % 256

/-- The affine map of the Rijndael S-box construction. -/
def sboxAffine (b : Nat) : Nat :=
  b ^^^ rotl8 b 1 ^^^ rotl8 b 2 ^^^ rotl8 b 3 ^^^ rotl8 b 4 ^^^ 0x63

/-- The inverse of the affine map of the Rijndael S-box construction. -/
def sboxAffineInv (s : Nat) : Nat :=
  rotl8 s 1 ^^^ rotl8 s 3 ^^^ rotl8 s 6 ^^^ 0x05

/-- The Rijndael forward S-box (published standard table). -/
def sboxTable : List Nat := [
  0x63, 0x7c, 0x77, 0x7b, 0xf2, 0x6b, 0x6f, 0xc5, 0x30, 0x01, 0x67, 0x2b, 0xfe, 0xd7, 0xab, 0x76,
  0xca, 0x82, 0xc9, 0x7d, 0xfa, 0x59, 0x47, 0xf0, 0xad, 0xd4, 0xa2, 0xaf, 0x9c, 0xa4, 0x72, 0xc0,
  0xb7, 0xfd, 0x93, 0x26, 0x36, 0x3f, 0xf7, 0xcc, 0x34, 0xa5, 0xe5, 0xf1, 0x71, 0xd8, 0x31, 0x15,
  0x04, 0xc7, 0x23, 0xc3, 0x18, 0x96, 0x05, 0x9a, 0x07, 0x12, 0x80, 0xe2, 0xeb, 0x27, 0xb2, 0x75,
  0x09, 0x83, 0x2c, 0x1a, 0x1b, 0x6e, 0x5a, 0xa0, 0x52, 0x3b, 0xd6, 0xb3, 0x29, 0xe3, 0x2f, 0x84,
  0x53, 0xd1, 0x00, 0xed, 0x20, 0xfc, 0xb1, 0x5b, 0x6a, 0xcb, 0xbe, 0x39, 0x4a, 0x4c, 0x58, 0xcf,
  0xd0, 0xef, 0xaa, 0xfb, 0x43, 0x4d, 0x33, 0x85, 0x45, 0xf9, 0x02, 0x7f, 0x50, 0x3c, 0x9f, 0xa8,
  0x51, 0xa3, 0x40, 0x8f, 0x92, 0x9d, 0x38, 0xf5, 0xbc, 0xb6, 0xda, 0x21, 0x10, 0xff, 0xf3, 0xd2,
  0xcd, 0x0c, 0x13, 0xec, 0x5f, 0x97, 0x44, 0x17, 0xc4, 0xa7, 0x7e, 0x3d, 0x64, 0x5d, 0x19, 0x73,
  0x60, 0x81, 0x4f, 0xdc, 0x22, 0x2a, 0x90, 0x88, 0x46, 0xee, 0xb8, 0x14, 0xde, 0x5e, 0x0b, 0xdb,
  0xe0, 0x32, 0x3a, 0x0a, 0x49, 0x06, 0x24, 0x5c, 0xc2, 0xd3, 0xac, 0x62, 0x91, 0x95, 0xe4, 0x79,
  0xe7, 0xc8, 0x37, 0x6d, 0x8d, 0xd5, 0x4e, 0xa9, 0x6c, 0x56, 0xf4, 0xea, 0x65, 0x7a, 0xae, 0x08,
  0xba, 0x78, 0x25, 0x2e, 0x1c, 0xa6, 0xb4, 0xc6, 0xe8, 0xdd, 0x74, 0x1f, 0x4b, 0xbd, 0x8b, 0x8a,
  0x70, 0x3e, 0xb5, 0x66, 0x48, 0x03, 0xf6, 0x0e, 0x61, 0x35, 0x57, 0xb9, 0x86, 0xc1, 0x1d, 0x9e,
  0xe1, 0xf8, 0x98, 0x11, 0x69, 0xd9, 0x8e, 0x94, 0x9b, 0x1e, 0x87, 0xe9, 0xce, 0x55, 0x28, 0xdf,
  0x8c, 0xa1, 0x89, 0x0d, 0xbf, 0xe6, 0x42, 0x68, 0x41, 0x99, 0x2d, 0x0f, 0xb0, 0x54, 0xbb, 0x16]

/-- The Rijndael inverse S-box (published standard table). -/
def invSboxTable : List Nat := [
  0x52, 0x09, 0x6a, 0xd5, 0x30, 0x36, 0xa5, 0x38, 0xbf, 0x40, 0xa3, 0x9e, 0x81, 0xf3, 0xd7, 0xfb,
  0x7c, 0xe3, 0x39, 0x82, 0x9b, 0x2f, 0xff, 0x87, 0x34, 0x8e, 0x43, 0x44, 0xc4, 0xde, 0xe9, 0xcb,
  0x54, 0x7b, 0x94, 0x32, 0xa6, 0xc2, 0x23, 0x3d, 0xee, 0x4c, 0x95, 0x0b, 0x42, 0xfa, 0xc3, 0x4e,
  0x08, 0x2e, 0xa1, 0x66, 0x28, 0xd9, 0x24, 0xb2, 0x76, 0x5b, 0xa2, 0x49, 0x6d, 0x8b, 0xd1, 0x25,
  0x72, 0xf8, 0xf6, 0x64, 0x86, 0x68, 0x98, 0x16, 0xd4, 0xa4, 0x5c, 0xcc, 0x5d, 0x65, 0xb6, 0x92,
  0x6c, 0x70, 0x48, 0x50, 0xfd, 0xed, 0xb9, 0xda, 0x5e, 0x15, 0x46, 0x57, 0xa7, 0x8d, 0x9d, 0x84,
  0x90, 0xd8, 0xab, 0x00, 0x8c, 0xbc, 0xd3, 0x0a, 0xf7, 0xe4, 0x58, 0x05, 0xb8, 0xb3, 0x45, 0x06,
  0xd0, 0x2c, 0x1e, 0x8f, 0xca, 0x3f, 0x0f, 0x02, 0xc1, 0xaf, 0xbd, 0x03, 0x01, 0x13, 0x8a, 0x6b,
  0x3a, 0x91, 0x11, 0x41, 0x4f, 0x67, 0xdc, 0xea, 0x97, 0xf2, 0xcf, 0xce, 0xf0, 0xb4, 0xe6, 0x73,
  0x96, 0xac, 0x74, 0x22, 0xe7, 0xad, 0x35, 0x85, 0xe2, 0xf9, 0x37, 0xe8, 0x1c, 0x75, 0xdf, 0x6e,
  0x47, 0xf1, 0x1a, 0x71, 0x1d, 0x29, 0xc5, 0x89, 0x6f, 0xb7, 0x62, 0x0e, 0xaa, 0x18, 0xbe, 0x1b,
  0xfc, 0x56, 0x3e, 0x4b, 0xc6, 0xd2, 0x79, 0x20, 0x9a, 0xdb, 0xc0, 0xfe, 0x78, 0xcd, 0x5a, 0xf4,
  0x1f, 0xdd, 0xa8, 0x33, 0x88, 0x07, 0xc7, 0x31, 0xb1, 0x12, 0x10, 0x59, 0x27, 0x80, 0xec, 0x5f,
  0x60, 0x51, 0x7f, 0xa9, 0x19, 0xb5, 0x4a, 0x0d, 0x2d, 0xe5, 0x7a, 0x9f, 0x93, 0xc9, 0x9c, 0xef,
  0xa0, 0xe0, 0x3b, 0x4d, 0xae, 0x2a, 0xf5, 0xb0, 0xc8, 0xeb, 0xbb, 0x3c, 0x83, 0x53, 0x99, 0x61,
  0x17, 0x2b, 0x04, 0x7e, 0xba, 0x77, 0xd6, 0x26, 0xe1, 0x69, 0x14, 0x63, 0x55, 0x21, 0x0c, 0x7d]

/-- Forward byte substitution. -/
def sbox (x : Nat) : Nat := sboxTable.getD x 0

/-- Inverse byte substitution. -/
def invSbox (x : Nat) : Nat := invSboxTable.getD x 0

/-- The S-box table agrees with the defining construction of the standard:
each nonzero byte is sent to the affine image of its GF(2^8) multiplicative
inverse (undoing the affine map recovers a multiplicative inverse), zero is
sent to the affine image of zero, and the affine map is inverted by
`sboxAffineInv`. -/
theorem sbox_eq_construction :
    (∀ x, x < 256 → x ≠ 0 → gmul x (sboxAffineInv (sbox x)) = 1) ∧
      sbox 0 = sboxAffine 0 ∧ ∀ b, b < 256 → sboxAffineInv (sboxAffine b) = b := by
  refine ⟨by decide, by decide, by decide⟩

/-- The inverse table inverts the forward table on bytes. -/
theorem invSbox_sbox : ∀ x, x < 256 → invSbox (sbox x) = x := by decide

theorem sbox_lt_aux : ∀ x, x < 256 → sbox x < 256 := by decide

theorem invSbox_lt_aux : ∀ x, x < 256 → invSbox x < 256 := by decide

theorem sboxTable_length : sboxTable.length = 256 := by decide

theorem invSboxTable_length : invSboxTable.length = 256 := by decide

theorem sbox_lt (x : Nat) : sbox x < 256 := by
  by_cases h : x < 256
  · exact sbox_lt_aux x h
  · unfold sbox
    rw [List.getD_eq_default]
    · omega
    · rw [sboxTable_length]; omega

theorem invSbox_lt (x : Nat) : invSbox x < 256 := by
  by_cases h : x < 256
  · exact invSbox_lt_aux x h
  · unfold invSbox
    rw [List.getD_eq_default]
    · omega
    · rw [invSboxTable_length]; omega

theorem xor_lt256 {x y : Nat} (hx : x < 256) (hy : y < 256) : x ^^^ y < 256 := by
  have h : (256 : Nat) = 2 ^ 8 := by norm_num
  rw [h] at hx hy ⊢
  exact Nat.xor_lt_two_pow hx hy

theorem xor_lt128 {x y : Nat} (hx : x < 128) (hy : y < 128) : x ^^^ y < 128 := by
  have h : (128 : Nat) = 2 ^ 7 := by norm_num
  rw [h] at hx hy ⊢
  exact Nat.xor_lt_two_pow hx hy

theorem xor_left_comm (a b c : Nat) : a ^^^ (b ^^^ c) = b ^^^ (a ^^^ c) := by
  rw [← Nat.xor_assoc, Nat.xor_comm a b, Nat.xor_assoc]

theorem xor_xor_cancel (p q c : Nat) : (p ^^^ c) ^^^ (q ^^^ c) = p ^^^ q := by
  rw [Nat.xor_assoc, Nat.xor_comm q c, Nat.xor_cancel_left]

theorem xor_mix (p q r s : Nat) : (p ^^^ q) ^^^ (r ^^^ s) = (p ^^^ r) ^^^ (q ^^^ s) := by
  rw [Nat.xor_assoc, xor_left_comm q r s, ← Nat.xor_assoc]

theorem two_mul_xor (a b : Nat) : 2 * (a ^^^ b) = (2 * a) ^^^ (2 * b) := by
  have h : ∀ x : Nat, 2 * x = x <<< 1 := by
    intro x
    rw [Nat.shiftLeft_eq]
    ring
  rw [h, h, h]
  apply Nat.eq_of_testBit_eq
  intro i
  simp only [Nat.testBit_shiftLeft, Nat.testBit_xor]
  cases h1 : decide (1 ≤ i) <;> simp

theorem xor_high_low : ∀ c, c < 2 → ∀ z, z < 128 → (128 * c) ^^^ z = 128 * c + z := by
  decide

theorem xor_high_high : ∀ a, a < 2 → ∀ b, b < 2 →
    (128 * a) ^^^ (128 * b) = 128 * (a ^^^ b) := by decide

theorem xtime_eval : ∀ c, c < 2 → ∀ z, z < 128 →
    xtime (128 * c + z) = if c = 1 then (2 * z) ^^^ 27 else 2 * z := by decide

/-- The map `xtime` is GF(2)-linear on bytes. -/
theorem xtime_linear (x y : Nat) (hx : x < 256) (hy : y < 256) :
    xtime (x ^^^ y) = xtime x ^^^ xtime y := by
  obtain ⟨a, u, ha, hu, rfl⟩ : ∃ a u, a < 2 ∧ u < 128 ∧ x = 128 * a + u :=
    ⟨x / 128, x % 128, by omega, by omega, by omega⟩
  obtain ⟨b, v, hb, hv, rfl⟩ : ∃ b v, b < 2 ∧ v < 128 ∧ y = 128 * b + v :=
    ⟨y / 128, y % 128, by omega, by omega, by omega⟩
  have huv : u ^^^ v < 128 := xor_lt128 hu hv
  have hab : a ^^^ b < 2 := by
    interval_cases a <;> interval_cases b <;> decide
  have hsplit : (128 * a + u) ^^^ (128 * b + v) = 128 * (a ^^^ b) + (u ^^^ v) := by
    rw [← xor_high_low a ha u hu, ← xor_high_low b hb v hv, xor_mix,
      xor_high_high a ha b hb, xor_high_low _ hab _ huv]
  rw [hsplit, xtime_eval _ hab _ huv, xtime_eval _ ha _ hu, xtime_eval _ hb _ hv]
  interval_cases a <;> interval_cases b
  · norm_num
    exact two_mul_xor u v
  · norm_num
    rw [two_mul_xor, Nat.xor_assoc]
  · norm_num
    rw [two_mul_xor, Nat.xor_assoc, Nat.xor_comm (2 * v) 27, ← Nat.xor_assoc]
  · norm_num
    rw [two_mul_xor, ← xor_xor_cancel (2 * u) (2 * v) 27]

theorem xtime_lt : ∀ b, b < 256 → xtime b < 256 := by decide

theorem gmulAux_lt : ∀ n a b, b < 256 → gmulAux n a b < 256 := by
  intro n
  induction n with
  | zero => intro a b _; simp [gmulAux]
  | succ n ih =>
    intro a b hb
    unfold gmulAux
    apply xor_lt256 _ (ih (a / 2) (xtime b) (xtime_lt b hb))
    split
    · exact hb
    · omega

theorem gmul_lt (a b : Nat) (hb : b < 256) : gmul a b < 256 := gmulAux_lt 8 a b hb

theorem gmulAux_linear : ∀ n a x y, x < 256 → y < 256 →
    gmulAux n a (x ^^^ y) = gmulAux n a x ^^^ gmulAux n a y := by
  intro n
  induction n with
  | zero => intro a x y _ _; simp [gmulAux]
  | succ n ih =>
    intro a x y hx hy
    unfold gmulAux
    rw [xtime_linear x y hx hy, ih (a / 2) _ _ (xtime_lt x hx) (xtime_lt y hy)]
    by_cases h : a % 2 = 1
    · simp only [if_pos h]
      exact xor_mix x y _ _
    · simp only [if_neg h]
      rw [xor_mix, Nat.xor_zero]

/-- GF(2^8) multiplication is GF(2)-linear in its second argument on bytes. -/
theorem gmul_linear (a x y : Nat) (hx : x < 256) (hy : y < 256) :
    gmul a (x ^^^ y) = gmul a x ^^^ gmul a y :=
  gmulAux_linear 8 a x y hx hy

theorem gmulAux_zero_right : ∀ n a, gmulAux n a 0 = 0 := by
  intro n
  induction n with
  | zero => intro a; rfl
  | succ n ih =>
    intro a
    unfold gmulAux
    have hxt : xtime 0 = 0 := by decide
    rw [hxt, ih (a / 2)]
    split <;> rfl

theorem gmul_zero_right (a : Nat) : gmul a 0 = 0 := gmulAux_zero_right 8 a

/-- The Rijndael MixColumns matrix. -/
def mixMat : List (List Nat) := [[2, 3, 1, 1], [1, 2, 3, 1], [1, 1, 2, 3], [3, 1, 1, 2]]

/-- The InvMixColumns matrix. -/
def invMixMat : List (List Nat) :=
  [[14, 11, 13, 9], [9, 14, 11, 13], [13, 9, 14, 11], [11, 13, 9, 14]]

/-- Entry of the MixColumns matrix. -/
def mEnc (r k : Nat) : Nat := (mixMat.getD r []).getD k 0

/-- Entry of the InvMixColumns matrix. -/
def mDec (r k : Nat) : Nat := (invMixMat.getD r []).getD k 0

/-- A block is 16 bytes; the flat index `i` addresses row `i % 4` of column
`i / 4` of the 4x4 column-major Rijndael state. -/
def ValidBlock (b : List Nat) : Prop := b.length = 16 ∧ ∀ x ∈ b, x < 256

/-- SubBytes: apply the forward S-box to every state byte. -/
def subBytes (s : List Nat) : List Nat := s.map sbox

/-- InvSubBytes. -/
def invSubBytes (s : List Nat) : List Nat := s.map invSbox

/-- Source index of ShiftRows: row `r` is cyclically rotated left by `r`,
so output cell (r, c) reads input cell (r, (c + r) mod 4). -/
def shiftIdx (i : Nat) : Nat := i % 4 + 4 * ((i / 4 + i % 4) % 4)

/-- Source index of InvShiftRows: row `r` rotated right by `r`. -/
def invShiftIdx (i : Nat) : Nat := i % 4 + 4 * ((i / 4 + 4 - i % 4) % 4)

/-- ShiftRows on the flat column-major state. -/
def shiftRows (s : List Nat) : List Nat :=
  List.ofFn (fun i : Fin 16 => s.getD (shiftIdx i.val) 0)

/-- InvShiftRows on the flat column-major state. -/
def invShiftRows (s : List Nat) : List Nat :=
  List.ofFn (fun i : Fin 16 => s.getD (invShiftIdx i.val) 0)

/-- Byte `i` of a column-mixing step: the GF(2^8) dot product of matrix row
`i % 4` with the column `i / 4` of the state. -/
def mixCol (m : Nat → Nat → Nat) (i : Nat) (s : List Nat) : Nat :=
  gmul (m (i % 4) 0) (s.getD (i / 4 * 4) 0) ^^^
    gmul (m (i % 4) 1) (s.getD (i / 4 * 4 + 1) 0) ^^^
    gmul (m (i % 4) 2) (s.getD (i / 4 * 4 + 2) 0) ^^^
    gmul (m (i % 4) 3) (s.getD (i / 4 * 4 + 3) 0)

/-- MixColumns: every column is multiplied by the fixed Rijndael matrix. -/
def mixColumns (s : List Nat) : List Nat :=
  List.ofFn (fun i : Fin 16 => mixCol mEnc i.val s)

/-- InvMixColumns. -/
def invMixColumns (s : List Nat) : List Nat :=
  List.ofFn (fun i : Fin 16 => mixCol mDec i.val s)

/-- AddRoundKey: bytewise xor of state and round key. -/
def addRoundKey (s k : List Nat) : List Nat := List.zipWith (· ^^^ ·) s k

theorem getD_ofFn16 (f : Fin 16 → Nat) (i : Nat) (h : i < 16) :
    (List.ofFn f).getD i 0 = f ⟨i, h⟩ := by
  rw [List.getD_eq_getElem _ _ (by simpa using h), List.getElem_ofFn]

theorem ext16 {a b : List Nat} (ha : a.length = 16) (hb : b.length = 16)
    (h : ∀ i, i < 16 → a.getD i 0 = b.getD i 0) : a = b := by
  apply List.ext_getElem (by omega)
  intro n h1 h2
  have hn := h n (by omega)
  rwa [List.getD_eq_getElem a 0 h1, List.getD_eq_getElem b 0 h2] at hn

theorem getD_lt_of_valid {s : List Nat} (hs : ValidBlock s) (i : Nat) : s.getD i 0 < 256 := by
  by_cases h : i < s.length
  · rw [List.getD_eq_getElem s 0 h]
    exact hs.2 _ (List.getElem_mem h)
  · rw [List.getD_eq_default s 0 (by omega)]
    omega

theorem subBytes_length (s : List Nat) : (subBytes s).length = s.length := by
  simp [subBytes]

theorem subBytes_valid {s : List Nat} (hs : ValidBlock s) : ValidBlock (subBytes s) := by
  refine ⟨by simp [subBytes, hs.1], ?_⟩
  rw [subBytes, List.forall_mem_map]
  exact fun j _ => sbox_lt j

theorem invSubBytes_valid {s : List Nat} (hs : ValidBlock s) : ValidBlock (invSubBytes s) := by
  refine ⟨by simp [invSubBytes, hs.1], ?_⟩
  rw [invSubBytes, List.forall_mem_map]
  exact fun j _ => invSbox_lt j

theorem shiftRows_length (s : List Nat) : (shiftRows s).length = 16 := by
  simp [shiftRows]

theorem invShiftRows_length (s : List Nat) : (invShiftRows s).length = 16 := by
  simp [invShiftRows]

theorem shiftRows_valid {s : List Nat} (hs : ValidBlock s) : ValidBlock (shiftRows s) := by
  refine ⟨shiftRows_length s, ?_⟩
  intro x hx
  rw [shiftRows, List.mem_ofFn] at hx
  obtain ⟨i, rfl⟩ := hx
  exact getD_lt_of_valid hs _

theorem invShiftRows_valid {s : List Nat} (hs : ValidBlock s) : ValidBlock (invShiftRows s) := by
  refine ⟨invShiftRows_length s, ?_⟩
  intro x hx
  rw [invShiftRows, List.mem_ofFn] at hx
  obtain ⟨i, rfl⟩ := hx
  exact getD_lt_of_valid hs _

theorem mixCol_lt {s : List Nat} (hs : ValidBlock s) (m : Nat → Nat → Nat) (i : Nat) :
    mixCol m i s < 256 := by
  unfold mixCol
  exact xor_lt256 (xor_lt256 (xor_lt256 (gmul_lt _ _ (getD_lt_of_valid hs _))
    (gmul_lt _ _ (getD_lt_of_valid hs _))) (gmul_lt _ _ (getD_lt_of_valid hs _)))
    (gmul_lt _ _ (getD_lt_of_valid hs _))

theorem mixColumns_valid {s : List Nat} (hs : ValidBlock s) : ValidBlock (mixColumns s) := by
  refine ⟨by simp [mixColumns], ?_⟩
  intro x hx
  rw [mixColumns, List.mem_ofFn] at hx
  obtain ⟨i, rfl⟩ := hx
  exact mixCol_lt hs _ _

theorem invMixColumns_valid {s : List Nat} (hs : ValidBlock s) : ValidBlock (invMixColumns s) := by
  refine ⟨by simp [invMixColumns], ?_⟩
  intro x hx
  rw [invMixColumns, List.mem_ofFn] at hx
  obtain ⟨i, rfl⟩ := hx
  exact mixCol_lt hs _ _

theorem addRoundKey_length {s k : List Nat} (hs : s.length = 16) (hk : k.length = 16) :
    (addRoundKey s k).length = 16 := by
  simp [addRoundKey, hs, hk]

theorem addRoundKey_valid {s k : List Nat} (hs : ValidBlock s) (hk : ValidBlock k) :
    ValidBlock (addRoundKey s k) := by
  refine ⟨addRoundKey_length hs.1 hk.1, ?_⟩
  intro x hx
  rw [addRoundKey, List.mem_iff_getElem] at hx
  obtain ⟨i, hi, rfl⟩ := hx
  rw [List.getElem_zipWith]
  exact xor_lt256 (hs.2 _ (List.getElem_mem _)) (hk.2 _ (List.getElem_mem _))

theorem getD_addRoundKey {s k : List Nat} (hs : s.length = 16) (hk : k.length = 16)
    {i : Nat} (hi : i < 16) : (addRoundKey s k).getD i 0 = s.getD i 0 ^^^ k.getD i 0 := by
  rw [addRoundKey, List.getD_eq_getElem _ _ (by simp [hs, hk]; omega),
    List.getElem_zipWith, List.getD_eq_getElem s 0 (by omega), List.getD_eq_getElem k 0 (by omega)]

/-- Cancellation of AddRoundKey. -/
theorem addRoundKey_cancel {s k : List Nat} (hs : s.length = 16) (hk : k.length = 16) :
    addRoundKey (addRoundKey s k) k = s := by
  apply ext16 (addRoundKey_length (addRoundKey_length hs hk) hk) hs
  intro i hi
  rw [getD_addRoundKey (addRoundKey_length hs hk) hk hi, getD_addRoundKey hs hk hi,
    Nat.xor_assoc, Nat.xor_self, Nat.xor_zero]

theorem shiftIdx_lt : ∀ i, i < 16 → shiftIdx i < 16 := by decide

theorem invShiftIdx_lt : ∀ i, i < 16 → invShiftIdx i < 16 := by decide

theorem shiftIdx_invShiftIdx : ∀ i, i < 16 → shiftIdx (invShiftIdx i) = i := by decide

theorem invShiftIdx_shiftIdx : ∀ i, i < 16 → invShiftIdx (shiftIdx i) = i := by decide

/-- InvShiftRows undoes ShiftRows. -/
theorem invShiftRows_shiftRows {s : List Nat} (hs : s.length = 16) :
    invShiftRows (shiftRows s) = s := by
  apply ext16 (invShiftRows_length _) hs
  intro i hi
  rw [invShiftRows, getD_ofFn16 _ i hi, shiftRows, getD_ofFn16 _ _ (invShiftIdx_lt i hi),
    shiftIdx_invShiftIdx i hi]

/-- InvSubBytes undoes SubBytes on valid states. -/
theorem invSubBytes_subBytes {s : List Nat} (hs : ValidBlock s) :
    invSubBytes (subBytes s) = s := by
  rw [invSubBytes, subBytes, List.map_map]
  have : ∀ x ∈ s, (invSbox ∘ sbox) x = id x := by
    intro x hx
    exact invSbox_sbox x (hs.2 x hx)
  rw [List.map_congr_left this, List.map_id]

/-- Entry (r, j) of the product of the InvMixColumns and MixColumns matrices
over GF(2^8), applied to the byte `b`. -/
def dotK (r j b : Nat) : Nat :=
  gmul (mDec r 0) (gmul (mEnc 0 j) b) ^^^ gmul (mDec r 1) (gmul (mEnc 1 j) b) ^^^
    gmul (mDec r 2) (gmul (mEnc 2 j) b) ^^^ gmul (mDec r 3) (gmul (mEnc 3 j) b)

theorem dotK_zero (r j : Nat) : dotK r j 0 = 0 := by
  simp [dotK, gmul_zero_right]

theorem xor_mix4 (a0 a1 a2 a3 b0 b1 b2 b3 : Nat) :
    ((a0 ^^^ b0) ^^^ (a1 ^^^ b1)) ^^^ ((a2 ^^^ b2)) ^^^ ((a3 ^^^ b3)) =
    ((a0 ^^^ a1) ^^^ a2 ^^^ a3) ^^^ ((b0 ^^^ b1) ^^^ b2 ^^^ b3) := by
  rw [xor_mix a0 b0 a1 b1, xor_mix (a0 ^^^ a1) (b0 ^^^ b1) a2 b2,
    xor_mix ((a0 ^^^ a1) ^^^ a2) ((b0 ^^^ b1) ^^^ b2) a3 b3]

theorem gmul_linear4 (a x0 x1 x2 x3 : Nat) (h0 : x0 < 256) (h1 : x1 < 256)
    (h2 : x2 < 256) (h3 : x3 < 256) :
    gmul a (x0 ^^^ x1 ^^^ x2 ^^^ x3) =
      gmul a x0 ^^^ gmul a x1 ^^^ gmul a x2 ^^^ gmul a x3 := by
  rw [gmul_linear a _ _ (xor_lt256 (xor_lt256 h0 h1) h2) h3,
    gmul_linear a _ _ (xor_lt256 h0 h1) h2, gmul_linear a _ _ h0 h1]

theorem dotK_linear (r j x y : Nat) (hx : x < 256) (hy : y < 256) :
    dotK r j (x ^^^ y) = dotK r j x ^^^ dotK r j y := by
  unfold dotK
  rw [gmul_linear (mEnc 0 j) x y hx hy, gmul_linear (mEnc 1 j) x y hx hy,
    gmul_linear (mEnc 2 j) x y hx hy, gmul_linear (mEnc 3 j) x y hx hy,
    gmul_linear (mDec r 0) _ _ (gmul_lt _ _ hx) (gmul_lt _ _ hy),
    gmul_linear (mDec r 1) _ _ (gmul_lt _ _ hx) (gmul_lt _ _ hy),
    gmul_linear (mDec r 2) _ _ (gmul_lt _ _ hx) (gmul_lt _ _ hy),
    gmul_linear (mDec r 3) _ _ (gmul_lt _ _ hx) (gmul_lt _ _ hy)]
  exact xor_mix4 _ _ _ _ _ _ _ _

theorem dotK_pow : ∀ r, r < 4 → ∀ j, j < 4 → ∀ k, k < 8 →
    dotK r j (2 ^ k) = if r = j then 2 ^ k else 0 := by decide

theorem pow_xor_lower : ∀ k, k < 8 → ∀ z, z < 2 ^ k → (2 ^ k) ^^^ z = 2 ^ k + z := by
  decide

/-- The InvMixColumns matrix inverts the MixColumns matrix entrywise over
GF(2^8): row `r` of the product applied to a byte in slot `j` gives back the
byte iff `r = j`, else zero. -/
theorem dotK_eval (r j : Nat) (hr : r < 4) (hj : j < 4) :
    ∀ b, b < 256 → dotK r j b = if r = j then b else 0 := by
  intro b
  induction b using Nat.strong_induction_on with
  | _ b ih =>
    intro hb
    by_cases hb0 : b = 0
    · subst hb0
      rw [dotK_zero]
      simp
    · have hk1 : 2 ^ b.log2 ≤ b := Nat.log2_self_le hb0
      have hk2 : b < 2 ^ (b.log2 + 1) := Nat.lt_log2_self
      have hpow : (2 : Nat) ^ (b.log2 + 1) = 2 * 2 ^ b.log2 := by ring
      have hklt : b.log2 < 8 := by
        by_contra hc
        push_neg at hc
        have := Nat.pow_le_pow_right (show 0 < 2 by omega) hc
        omega
      have hp256 : (2 : Nat) ^ b.log2 < 256 := by
        have h7 : b.log2 ≤ 7 := by omega
        have := Nat.pow_le_pow_right (show 0 < 2 by omega) h7
        omega
      have hl : b - 2 ^ b.log2 < 2 ^ b.log2 := by omega
      have hsplit : (2 ^ b.log2) ^^^ (b - 2 ^ b.log2) = b := by
        rw [pow_xor_lower _ hklt _ hl]
        omega
      have hlb : b - 2 ^ b.log2 < b := by omega
      have hl256 : b - 2 ^ b.log2 < 256 := by omega
      calc dotK r j b = dotK r j ((2 ^ b.log2) ^^^ (b - 2 ^ b.log2)) := by rw [hsplit]
        _ = dotK r j (2 ^ b.log2) ^^^ dotK r j (b - 2 ^ b.log2) :=
            dotK_linear r j _ _ hp256 hl256
        _ = (if r = j then 2 ^ b.log2 else 0) ^^^ (if r = j then b - 2 ^ b.log2 else 0) := by
            rw [dotK_pow r hr j hj _ hklt, ih _ hlb hl256]
        _ = if r = j then b else 0 := by
            by_cases h : r = j <;> simp [h, hsplit]

/-- Row `r` of InvMixColumns applied to the four MixColumns combinations of a
column recovers byte `r` of the column. -/
theorem col_inverse (r : Nat) (hr : r < 4) (b0 b1 b2 b3 : Nat) (h0 : b0 < 256)
    (h1 : b1 < 256) (h2 : b2 < 256) (h3 : b3 < 256) :
    gmul (mDec r 0) (gmul (mEnc 0 0) b0 ^^^ gmul (mEnc 0 1) b1 ^^^ gmul (mEnc 0 2) b2 ^^^ gmul (mEnc 0 3) b3) ^^^
      gmul (mDec r 1) (gmul (mEnc 1 0) b0 ^^^ gmul (mEnc 1 1) b1 ^^^ gmul (mEnc 1 2) b2 ^^^ gmul (mEnc 1 3) b3) ^^^
      gmul (mDec r 2) (gmul (mEnc 2 0) b0 ^^^ gmul (mEnc 2 1) b1 ^^^ gmul (mEnc 2 2) b2 ^^^ gmul (mEnc 2 3) b3) ^^^
      gmul (mDec r 3) (gmul (mEnc 3 0) b0 ^^^ gmul (mEnc 3 1) b1 ^^^ gmul (mEnc 3 2) b2 ^^^ gmul (mEnc 3 3) b3) =
      if r = 0 then b0 else if r = 1 then b1 else if r = 2 then b2 else b3 := by
  rw [gmul_linear4 (mDec r 0) _ _ _ _ (gmul_lt _ _ h0) (gmul_lt _ _ h1) (gmul_lt _ _ h2) (gmul_lt _ _ h3),
    gmul_linear4 (mDec r 1) _ _ _ _ (gmul_lt _ _ h0) (gmul_lt _ _ h1) (gmul_lt _ _ h2) (gmul_lt _ _ h3),
    gmul_linear4 (mDec r 2) _ _ _ _ (gmul_lt _ _ h0) (gmul_lt _ _ h1) (gmul_lt _ _ h2) (gmul_lt _ _ h3),
    gmul_linear4 (mDec r 3) _ _ _ _ (gmul_lt _ _ h0) (gmul_lt _ _ h1) (gmul_lt _ _ h2) (gmul_lt _ _ h3)]
  have ht : ∀ g00 g01 g02 g03 g10 g11 g12 g13 g20 g21 g22 g23 g30 g31 g32 g33 : Nat,
      (g00 ^^^ g01 ^^^ g02 ^^^ g03) ^^^ (g10 ^^^ g11 ^^^ g12 ^^^ g13) ^^^
        (g20 ^^^ g21 ^^^ g22 ^^^ g23) ^^^ (g30 ^^^ g31 ^^^ g32 ^^^ g33) =
      (g00 ^^^ g10 ^^^ g20 ^^^ g30) ^^^ (g01 ^^^ g11 ^^^ g21 ^^^ g31) ^^^
        (g02 ^^^ g12 ^^^ g22 ^^^ g32) ^^^ (g03 ^^^ g13 ^^^ g23 ^^^ g33) := by
    intro g00 g01 g02 g03 g10 g11 g12 g13 g20 g21 g22 g23 g30 g31 g32 g33
    simp only [Nat.xor_assoc]
    simp only [Nat.xor_comm, xor_left_comm]
  rw [ht]
  have d0 : (gmul (mDec r 0) (gmul (mEnc 0 0) b0) ^^^ gmul (mDec r 1) (gmul (mEnc 1 0) b0) ^^^
      gmul (mDec r 2) (gmul (mEnc 2 0) b0) ^^^ gmul (mDec r 3) (gmul (mEnc 3 0) b0)) = dotK r 0 b0 := rfl
  have d1 : (gmul (mDec r 0) (gmul (mEnc 0 1) b1) ^^^ gmul (mDec r 1) (gmul (mEnc 1 1) b1) ^^^
      gmul (mDec r 2) (gmul (mEnc 2 1) b1) ^^^ gmul (mDec r 3) (gmul (mEnc 3 1) b1)) = dotK r 1 b1 := rfl
  have d2 : (gmul (mDec r 0) (gmul (mEnc 0 2) b2) ^^^ gmul (mDec r 1) (gmul (mEnc 1 2) b2) ^^^
      gmul (mDec r 2) (gmul (mEnc 2 2) b2) ^^^ gmul (mDec r 3) (gmul (mEnc 3 2) b2)) = dotK r 2 b2 := rfl
  have d3 : (gmul (mDec r 0) (gmul (mEnc 0 3) b3) ^^^ gmul (mDec r 1) (gmul (mEnc 1 3) b3) ^^^
      gmul (mDec r 2) (gmul (mEnc 2 3) b3) ^^^ gmul (mDec r 3) (gmul (mEnc 3 3) b3)) = dotK r 3 b3 := rfl
  rw [d0, d1, d2, d3, dotK_eval r 0 hr (by omega) b0 h0, dotK_eval r 1 hr (by omega) b1 h1,
    dotK_eval r 2 hr (by omega) b2 h2, dotK_eval r 3 hr (by omega) b3 h3]
  have : r = 0 ∨ r = 1 ∨ r = 2 ∨ r = 3 := by omega
  rcases this with h | h | h | h <;> subst h <;> simp

theorem getD_ofFn16N (g : Nat → Nat) (i : Nat) (h : i < 16) :
    (List.ofFn (fun j : Fin 16 => g j.val)).getD i 0 = g i := by
  rw [getD_ofFn16 _ i h]

theorem mixCol_row (s : List Nat) (c k : Nat) (hc : c % 4 = 0) (hk : k < 4) :
    mixCol mEnc (c + k) s =
      gmul (mEnc k 0) (s.getD c 0) ^^^ gmul (mEnc k 1) (s.getD (c + 1) 0) ^^^
        gmul (mEnc k 2) (s.getD (c + 2) 0) ^^^ gmul (mEnc k 3) (s.getD (c + 3) 0) := by
  unfold mixCol
  have e1 : (c + k) % 4 = k := by omega
  have e2 : (c + k) / 4 * 4 = c := by omega
  rw [e1, e2]

/-- InvMixColumns undoes MixColumns on valid states. -/
theorem invMixColumns_mixColumns {s : List Nat} (hs : ValidBlock s) :
    invMixColumns (mixColumns s) = s := by
  apply ext16 (by simp [invMixColumns]) hs.1
  intro i hi
  rw [invMixColumns, getD_ofFn16N (fun n => mixCol mDec n (mixColumns s)) i hi]
  unfold mixCol
  have h0 : i / 4 * 4 < 16 := by omega
  have h1 : i / 4 * 4 + 1 < 16 := by omega
  have h2 : i / 4 * 4 + 2 < 16 := by omega
  have h3 : i / 4 * 4 + 3 < 16 := by omega
  rw [mixColumns, getD_ofFn16N (fun n => mixCol mEnc n s) _ h0,
    getD_ofFn16N (fun n => mixCol mEnc n s) _ h1,
    getD_ofFn16N (fun n => mixCol mEnc n s) _ h2,
    getD_ofFn16N (fun n => mixCol mEnc n s) _ h3]
  have mc0 : mixCol mEnc (i / 4 * 4) s =
      gmul (mEnc 0 0) (s.getD (i / 4 * 4) 0) ^^^ gmul (mEnc 0 1) (s.getD (i / 4 * 4 + 1) 0) ^^^
        gmul (mEnc 0 2) (s.getD (i / 4 * 4 + 2) 0) ^^^ gmul (mEnc 0 3) (s.getD (i / 4 * 4 + 3) 0) := by
    have h := mixCol_row s (i / 4 * 4) 0 (by omega) (by omega)
    simpa using h
  have mc1 := mixCol_row s (i / 4 * 4) 1 (by omega) (by omega)
  have mc2 := mixCol_row s (i / 4 * 4) 2 (by omega) (by omega)
  have mc3 := mixCol_row s (i / 4 * 4) 3 (by omega) (by omega)
  rw [mc0, mc1, mc2, mc3,
    col_inverse (i % 4) (by omega) _ _ _ _ (getD_lt_of_valid hs _) (getD_lt_of_valid hs _)
      (getD_lt_of_valid hs _) (getD_lt_of_valid hs _)]
  have hr : i % 4 = 0 ∨ i % 4 = 1 ∨ i % 4 = 2 ∨ i % 4 = 3 := by omega
  rcases hr with h | h | h | h <;> rw [h] <;> norm_num
  · rw [show i / 4 * 4 = i by omega]
  · rw [show i / 4 * 4 + 1 = i by omega]
  · rw [show i / 4 * 4 + 2 = i by omega]
  · rw [show i / 4 * 4 + 3 = i by omega]

/-- InvMixColumns commutes with AddRoundKey (it is GF(2)-linear). -/
theorem invMixColumns_addRoundKey {s k : List Nat} (hs : ValidBlock s) (hk : ValidBlock k) :
    invMixColumns (addRoundKey s k) = addRoundKey (invMixColumns s) (invMixColumns k) := by
  apply ext16 (by simp [invMixColumns])
    (addRoundKey_length (by simp [invMixColumns]) (by simp [invMixColumns]))
  intro i hi
  rw [getD_addRoundKey (by simp [invMixColumns]) (by simp [invMixColumns]) hi]
  simp only [invMixColumns]
  rw [getD_ofFn16N (fun n => mixCol mDec n (addRoundKey s k)) i hi,
    getD_ofFn16N (fun n => mixCol mDec n s) i hi, getD_ofFn16N (fun n => mixCol mDec n k) i hi]
  unfold mixCol
  have g0 : i / 4 * 4 < 16 := by omega
  have g1 : i / 4 * 4 + 1 < 16 := by omega
  have g2 : i / 4 * 4 + 2 < 16 := by omega
  have g3 : i / 4 * 4 + 3 < 16 := by omega
  rw [getD_addRoundKey hs.1 hk.1 g0, getD_addRoundKey hs.1 hk.1 g1,
    getD_addRoundKey hs.1 hk.1 g2, getD_addRoundKey hs.1 hk.1 g3,
    gmul_linear _ _ _ (getD_lt_of_valid hs _) (getD_lt_of_valid hk _),
    gmul_linear _ _ _ (getD_lt_of_valid hs _) (getD_lt_of_valid hk _),
    gmul_linear _ _ _ (getD_lt_of_valid hs _) (getD_lt_of_valid hk _),
    gmul_linear _ _ _ (getD_lt_of_valid hs _) (getD_lt_of_valid hk _)]
  exact xor_mix4 _ _ _ _ _ _ _ _

/-- Modelled from the spec: the forward round sequence of
`camlpdf_rijndaelEncrypt` (whose implementation file is not under src/, only
its declaration and callers).  After the initial AddRoundKey every round key
but the last drives a full round — SubBytes, ShiftRows, MixColumns,
AddRoundKey — and the last key drives the final round, which skips
MixColumns. -/
def encRounds : List (List Nat) → List Nat → List Nat
  | [], s => s
  | [k], s => addRoundKey (shiftRows (subBytes s)) k
  | k :: k2 :: rest, s =>
    encRounds (k2 :: rest) (addRoundKey (mixColumns (shiftRows (subBytes s))) k)

/-- Modelled from the spec: single-block encryption under a round-key list:
AddRoundKey with round key 0, then the round sequence over the remaining
keys. -/
def encryptBlock (rks : List (List Nat)) (b : List Nat) : List Nat :=
  match rks with
  | [] => b
  | k0 :: rest => encRounds rest (addRoundKey b k0)

/-- Modelled from the spec: the equivalent-inverse round sequence of
`camlpdf_rijndaelDecrypt`.  Every key but the last drives a full inverse
round — InvShiftRows, InvSubBytes, InvMixColumns, then AddRoundKey with an
interior key that the decryption schedule already passed through
InvMixColumns; the final round skips InvMixColumns.  (The specification
text lists AddRoundKey before InvMixColumns; combined with the
pre-transformed interior keys of its own section 4.2 that order would break
the roundtrip guarantee stated in the same section, so this model follows
the standard equivalent inverse cipher, which the guarantee pins down.) -/
def decRounds : List (List Nat) → List Nat → List Nat
  | [], s => s
  | [k], s => addRoundKey (invSubBytes (invShiftRows s)) k
  | k :: k2 :: rest, s =>
    decRounds (k2 :: rest) (addRoundKey (invMixColumns (invSubBytes (invShiftRows s))) k)

/-- Modelled from the spec: single-block decryption under a (decryption
orientation) round-key list. -/
def decryptBlock (rks : List (List Nat)) (b : List Nat) : List Nat :=
  match rks with
  | [] => b
  | k0 :: rest => decRounds rest (addRoundKey b k0)

/-- Forward full (MixColumns) rounds only; the final round is split off. -/
def encFull : List (List Nat) → List Nat → List Nat
  | [], s => s
  | k :: rest, s => encFull rest (addRoundKey (mixColumns (shiftRows (subBytes s))) k)

/-- Inverse full (InvMixColumns) rounds only. -/
def decFull : List (List Nat) → List Nat → List Nat
  | [], s => s
  | k :: rest, s => decFull rest (addRoundKey (invMixColumns (invSubBytes (invShiftRows s))) k)

/-- All round keys of a schedule are 16 valid bytes. -/
def ValidKeys (l : List (List Nat)) : Prop := ∀ k ∈ l, ValidBlock k

theorem encRounds_append (ks : List (List Nat)) (klast : List Nat) :
    ∀ s, encRounds (ks ++ [klast]) s = addRoundKey (shiftRows (subBytes (encFull ks s))) klast := by
  induction ks with
  | nil => intro s; rfl
  | cons k ks ih =>
    intro s
    rcases hk : ks ++ [klast] with _ | ⟨a, as⟩
    · exact absurd hk (by simp)
    · rw [show (k :: ks) ++ [klast] = k :: (ks ++ [klast]) from rfl, hk,
        show encRounds (k :: a :: as) s =
          encRounds (a :: as) (addRoundKey (mixColumns (shiftRows (subBytes s))) k) from rfl,
        ← hk, ih]
      rfl

theorem decRounds_append (ks : List (List Nat)) (klast : List Nat) :
    ∀ s, decRounds (ks ++ [klast]) s =
      addRoundKey (invSubBytes (invShiftRows (decFull ks s))) klast := by
  induction ks with
  | nil => intro s; rfl
  | cons k ks ih =>
    intro s
    rcases hk : ks ++ [klast] with _ | ⟨a, as⟩
    · exact absurd hk (by simp)
    · rw [show (k :: ks) ++ [klast] = k :: (ks ++ [klast]) from rfl, hk,
        show decRounds (k :: a :: as) s =
          decRounds (a :: as) (addRoundKey (invMixColumns (invSubBytes (invShiftRows s))) k) from rfl,
        ← hk, ih]
      rfl

theorem encFull_valid : ∀ ks s, ValidKeys ks → ValidBlock s → ValidBlock (encFull ks s) := by
  intro ks
  induction ks with
  | nil => intro s _ hs; exact hs
  | cons k ks ih =>
    intro s hks hs
    exact ih _ (fun x hx => hks x (List.mem_cons_of_mem k hx))
      (addRoundKey_valid (mixColumns_valid (shiftRows_valid (subBytes_valid hs)))
        (hks k (List.mem_cons_self k ks)))

/-- Heart of the roundtrip: the reversed, InvMixColumns-transformed keys
unwind the forward full rounds. -/
theorem decFull_encFull (ks : List (List Nat)) :
    ∀ s t, ValidKeys ks → ValidBlock s →
      decFull ((ks.map invMixColumns).reverse ++ t) (shiftRows (subBytes (encFull ks s))) =
        decFull t (shiftRows (subBytes s)) := by
  induction ks with
  | nil => intro s t _ _; rfl
  | cons k ks ih =>
    intro s t hks hs
    have hk : ValidBlock k := hks k (List.mem_cons_self k ks)
    have hks' : ValidKeys ks := fun x hx => hks x (List.mem_cons_of_mem k hx)
    have hs' : ValidBlock (addRoundKey (mixColumns (shiftRows (subBytes s))) k) :=
      addRoundKey_valid (mixColumns_valid (shiftRows_valid (subBytes_valid hs))) hk
    have hlist : ((k :: ks).map invMixColumns).reverse ++ t =
        (ks.map invMixColumns).reverse ++ (invMixColumns k :: t) := by
      simp
    rw [hlist,
      show encFull (k :: ks) s = encFull ks (addRoundKey (mixColumns (shiftRows (subBytes s))) k)
        from rfl,
      ih _ _ hks' hs']
    rw [show decFull (invMixColumns k :: t)
          (shiftRows (subBytes (addRoundKey (mixColumns (shiftRows (subBytes s))) k))) =
        decFull t (addRoundKey (invMixColumns (invSubBytes (invShiftRows
          (shiftRows (subBytes (addRoundKey (mixColumns (shiftRows (subBytes s))) k))))))
          (invMixColumns k)) from rfl]
    congr 1
    rw [invShiftRows_shiftRows (by rw [subBytes_length, hs'.1]),
      invSubBytes_subBytes hs',
      invMixColumns_addRoundKey (mixColumns_valid (shiftRows_valid (subBytes_valid hs))) hk,
      invMixColumns_mixColumns (shiftRows_valid (subBytes_valid hs)),
      addRoundKey_cancel (shiftRows_length _) (by simp [invMixColumns])]

/-- Interior InvMixColumns transform: applied to every key except the last. -/
def imcButLast : List (List Nat) → List (List Nat)
  | [] => []
  | [k] => [k]
  | k :: k2 :: rest => invMixColumns k :: imcButLast (k2 :: rest)

/-- Modelled from the spec: the decryption schedule is the encryption round
keys in reverse order, with InvMixColumns applied to every round key
strictly between the first and the last. -/
def decScheduleOf (rks : List (List Nat)) : List (List Nat) :=
  match rks.reverse with
  | [] => []
  | k :: rest => k :: imcButLast rest

theorem imcButLast_append (l : List (List Nat)) (x : List Nat) :
    imcButLast (l ++ [x]) = l.map invMixColumns ++ [x] := by
  induction l with
  | nil => rfl
  | cons k l ih =>
    cases l with
    | nil => rfl
    | cons k2 l2 =>
      show invMixColumns k :: imcButLast ((k2 :: l2) ++ [x]) = _
      rw [ih]
      simp

/-- Core roundtrip over any list of at least two valid round keys:
decryption under the derived decryption schedule inverts encryption. -/
theorem decryptBlock_encryptBlock (rks : List (List Nat)) (b : List Nat)
    (hk : ValidKeys rks) (hb : ValidBlock b) (hlen : 2 ≤ rks.length) :
    decryptBlock (decScheduleOf rks) (encryptBlock rks b) = b := by
  rcases rks with _ | ⟨k0, rest⟩
  · simp at hlen
  have hrest : rest ≠ [] := by
    intro h
    subst h
    simp at hlen
  obtain ⟨mid, klast, rfl⟩ : ∃ mid klast, rest = mid ++ [klast] :=
    ⟨rest.dropLast, rest.getLast hrest, (List.dropLast_append_getLast hrest).symm⟩
  have hk0 : ValidBlock k0 := hk k0 (List.mem_cons_self k0 (mid ++ [klast]))
  have hklast : ValidBlock klast := hk klast (by simp)
  have hmid : ValidKeys mid := fun x hx => hk x (by simp [hx])
  have hs0 : ValidBlock (addRoundKey b k0) := addRoundKey_valid hb hk0
  have hY : ValidBlock (encFull mid (addRoundKey b k0)) := encFull_valid mid _ hmid hs0
  have hsched : decScheduleOf (k0 :: (mid ++ [klast])) =
      klast :: ((mid.map invMixColumns).reverse ++ [k0]) := by
    unfold decScheduleOf
    rw [show (k0 :: (mid ++ [klast])).reverse = klast :: (mid.reverse ++ [k0]) by simp]
    show klast :: imcButLast (mid.reverse ++ [k0]) = _
    rw [show imcButLast (mid.reverse ++ [k0]) = mid.reverse.map invMixColumns ++ [k0] from
      imcButLast_append mid.reverse k0]
    rw [List.map_reverse]
  rw [show encryptBlock (k0 :: (mid ++ [klast])) b =
      encRounds (mid ++ [klast]) (addRoundKey b k0) from rfl,
    encRounds_append, hsched,
    show decryptBlock (klast :: ((mid.map invMixColumns).reverse ++ [k0]))
        (addRoundKey (shiftRows (subBytes (encFull mid (addRoundKey b k0)))) klast) =
      decRounds ((mid.map invMixColumns).reverse ++ [k0])
        (addRoundKey (addRoundKey (shiftRows (subBytes (encFull mid (addRoundKey b k0)))) klast)
          klast) from rfl,
    addRoundKey_cancel (shiftRows_length _) hklast.1,
    decRounds_append]
  have hfull := decFull_encFull mid (addRoundKey b k0) [] hmid hs0
  rw [List.append_nil] at hfull
  rw [hfull,
    show decFull [] (shiftRows (subBytes (addRoundKey b k0))) =
      shiftRows (subBytes (addRoundKey b k0)) from rfl,
    invShiftRows_shiftRows (by rw [subBytes_length, hs0.1]),
    invSubBytes_subBytes hs0,
    addRoundKey_cancel hb.1 hk0.1]

/-- A key-expansion word: 4 bytes, most significant first. -/
def ValidWord (w : List Nat) : Prop := w.length = 4 ∧ ∀ x ∈ w, x < 256

/-- SubWord: S-box substitution on each byte of a word. -/
def subWord (w : List Nat) : List Nat := w.map sbox

/-- RotWord: rotate a word left by one byte. -/
def rotWord : List Nat → List Nat
  | [] => []
  | a :: rest => rest ++ [a]

/-- Bytewise xor of two words. -/
def xorWord (a b : List Nat) : List Nat := List.zipWith (· ^^^ ·) a b

/-- Round-constant byte: 1, then repeated `xtime`. -/
def rcByte : Nat → Nat
  | 0 => 1
  | n + 1 => xtime (rcByte n)

/-- Round-constant word for schedule round `j` (`j ≥ 1`). -/
def rconWord (j : Nat) : List Nat := [rcByte (j - 1), 0, 0, 0]

/-- Modelled from the spec: one key-expansion step, producing word `i` from
word `i-1` (`prev`) and word `i-Nk` (`back`): at multiples of Nk the
previous word is rotated, substituted and xored with the round constant;
for Nk > 6 at offset 4 it is substituted only; otherwise used as is. -/
def nextWord (nk i : Nat) (prev back : List Nat) : List Nat :=
  xorWord
    (if i % nk = 0 then xorWord (subWord (rotWord prev)) (rconWord (i / nk))
     else if 6 < nk ∧ i % nk = 4 then subWord prev
     else prev)
    back

/-- Modelled from the spec: append `count` further expansion words to `ws`. -/
def expandWords (nk : Nat) : Nat → List (List Nat) → List (List Nat)
  | 0, ws => ws
  | count + 1, ws =>
    expandWords nk count
      (ws ++ [nextWord nk ws.length (ws.getD (ws.length - 1) []) (ws.getD (ws.length - nk) [])])

/-- Split a byte list into consecutive 4-byte words (dropping a ragged tail). -/
def toWords : List Nat → List (List Nat)
  | [] => []
  | [_] => []
  | [_, _] => []
  | [_, _, _] => []
  | a :: b :: c :: d :: rest => [a, b, c, d] :: toWords rest

/-- Modelled from the spec: the full expansion-word sequence of
`camlpdf_rijndaelKeySetupEnc` — the key's own Nk words followed by generated
words up to `4 * (Nr + 1)`, with `Nr = Nk + 6`. -/
def keyWords (key : List Nat) : List (List Nat) :=
  expandWords (key.length / 4) (4 * (key.length / 4 + 6 + 1) - key.length / 4) (toWords key)

/-- Group each 4 consecutive expansion words into one 16-byte round key. -/
def groupRK : List (List Nat) → List (List Nat)
  | w0 :: w1 :: w2 :: w3 :: rest => (w0 ++ w1 ++ w2 ++ w3) :: groupRK rest
  | _ => []

/-- Modelled from the spec: the encryption-order round keys of a key. -/
def encRoundKeys (key : List Nat) : List (List Nat) := groupRK (keyWords key)

/-- Modelled from the spec: the decryption-order round keys — the same word
sequence, with round keys reversed and InvMixColumns applied to the interior
ones (`camlpdf_rijndaelKeySetupDec`). -/
def decRoundKeys (key : List Nat) : List (List Nat) := decScheduleOf (encRoundKeys key)

theorem toWords_length : ∀ l : List Nat, (toWords l).length = l.length / 4
  | [] => rfl
  | [_] => by simp [toWords]
  | [_, _] => by simp [toWords]
  | [_, _, _] => by simp [toWords]
  | a :: b :: c :: d :: rest => by
    show (toWords rest).length + 1 = _
    rw [toWords_length rest]
    show rest.length / 4 + 1 = (rest.length + 1 + 1 + 1 + 1) / 4
    omega

theorem toWords_valid : ∀ l : List Nat, (∀ x ∈ l, x < 256) →
    ∀ w ∈ toWords l, ValidWord w
  | [], _, w, hw => absurd hw (by simp [toWords])
  | [_], _, w, hw => absurd hw (by simp [toWords])
  | [_, _], _, w, hw => absurd hw (by simp [toWords])
  | [_, _, _], _, w, hw => absurd hw (by simp [toWords])
  | a :: b :: c :: d :: rest, hl, w, hw => by
    rcases (by simpa [toWords] using hw :
        w = [a, b, c, d] ∨ w ∈ toWords rest) with h | h
    · subst h
      refine ⟨rfl, ?_⟩
      intro x hx
      rcases (by simpa using hx : x = a ∨ x = b ∨ x = c ∨ x = d) with rfl | rfl | rfl | rfl <;>
        exact hl _ (by simp)
    · exact toWords_valid rest (fun x hx => hl x (by simp [hx])) w h

theorem expandWords_length (nk : Nat) :
    ∀ n ws, (expandWords nk n ws).length = ws.length + n := by
  intro n
  induction n with
  | zero => intro ws; rfl
  | succ n ih =>
    intro ws
    show (expandWords nk n _).length = _
    rw [ih]
    simp
    omega

theorem getD_mem {l : List (List Nat)} {j : Nat} (h : j < l.length) : l.getD j [] ∈ l := by
  rw [List.getD_eq_getElem l [] h]
  exact List.getElem_mem h

theorem rotWord_valid {w : List Nat} (hw : ValidWord w) : ValidWord (rotWord w) := by
  rcases w with _ | ⟨a, rest⟩
  · exact hw
  · refine ⟨by simpa using hw.1.symm ▸ (by simp [rotWord] : (rotWord (a :: rest)).length = rest.length + 1), ?_⟩
    intro x hx
    rw [rotWord] at hx
    rcases (by simpa using hx : x ∈ rest ∨ x = a) with h | rfl
    · exact hw.2 x (by simp [h])
    · exact hw.2 x (by simp)

theorem subWord_valid {w : List Nat} (hw : ValidWord w) : ValidWord (subWord w) := by
  refine ⟨by simp [subWord, hw.1], ?_⟩
  rw [subWord, List.forall_mem_map]
  exact fun j _ => sbox_lt j

theorem rcByte_lt : ∀ n, rcByte n < 256
  | 0 => by decide
  | n + 1 => xtime_lt _ (rcByte_lt n)

theorem rconWord_valid (j : Nat) : ValidWord (rconWord j) := by
  refine ⟨rfl, ?_⟩
  intro x hx
  rcases (by simpa [rconWord] using hx : x = rcByte (j - 1) ∨ x = 0) with rfl | rfl
  · exact rcByte_lt _
  · omega

theorem xorWord_valid {a b : List Nat} (ha : ValidWord a) (hb : ValidWord b) :
    ValidWord (xorWord a b) := by
  refine ⟨by simp [xorWord, ha.1, hb.1], ?_⟩
  intro x hx
  rw [xorWord, List.mem_iff_getElem] at hx
  obtain ⟨i, hi, rfl⟩ := hx
  rw [List.getElem_zipWith]
  exact xor_lt256 (ha.2 _ (List.getElem_mem _)) (hb.2 _ (List.getElem_mem _))

theorem nextWord_valid {nk i : Nat} {prev back : List Nat} (hp : ValidWord prev)
    (hb : ValidWord back) : ValidWord (nextWord nk i prev back) := by
  unfold nextWord
  apply xorWord_valid _ hb
  split
  · exact xorWord_valid (subWord_valid (rotWord_valid hp)) (rconWord_valid _)
  · split
    · exact subWord_valid hp
    · exact hp

theorem expandWords_valid (nk : Nat) (hnk : 1 ≤ nk) :
    ∀ n ws, nk ≤ ws.length → (∀ w ∈ ws, ValidWord w) →
      ∀ w ∈ expandWords nk n ws, ValidWord w := by
  intro n
  induction n with
  | zero => intro ws _ hws; exact hws
  | succ n ih =>
    intro ws hlen hws
    apply ih
    · simp
      omega
    · intro w hw
      rcases (by simpa using hw : w ∈ ws ∨ w = nextWord nk ws.length
          (ws.getD (ws.length - 1) []) (ws.getD (ws.length - nk) [])) with h | rfl
      · exact hws w h
      · exact nextWord_valid (hws _ (getD_mem (by omega))) (hws _ (getD_mem (by omega)))

theorem groupRK_length : ∀ (n : Nat) (ws : List (List Nat)), ws.length = 4 * n →
    (groupRK ws).length = n := by
  intro n
  induction n with
  | zero =>
    intro ws hl
    rw [show ws = [] from List.eq_nil_of_length_eq_zero (by omega)]
    rfl
  | succ n ih =>
    intro ws hl
    rcases ws with _ | ⟨w0, _ | ⟨w1, _ | ⟨w2, _ | ⟨w3, rest⟩⟩⟩⟩ <;> simp at hl <;> try omega
    show (groupRK rest).length + 1 = n + 1
    rw [ih rest (by omega)]

theorem groupRK_valid : ∀ ws : List (List Nat), (∀ w ∈ ws, ValidWord w) →
    ∀ k ∈ groupRK ws, ValidBlock k
  | [], _, k, hk => absurd hk (by simp [groupRK])
  | [_], _, k, hk => absurd hk (by simp [groupRK])
  | [_, _], _, k, hk => absurd hk (by simp [groupRK])
  | [_, _, _], _, k, hk => absurd hk (by simp [groupRK])
  | w0 :: w1 :: w2 :: w3 :: rest, hws, k, hk => by
    rcases (by simpa [groupRK] using hk :
        k = w0 ++ w1 ++ w2 ++ w3 ∨ k ∈ groupRK rest) with h | h
    · subst h
      have h0 := hws w0 (by simp)
      have h1 := hws w1 (by simp)
      have h2 := hws w2 (by simp)
      have h3 := hws w3 (by simp)
      refine ⟨by simp [h0.1, h1.1, h2.1, h3.1], ?_⟩
      intro x hx
      rcases (by simpa using hx : x ∈ w0 ∨ x ∈ w1 ∨ x ∈ w2 ∨ x ∈ w3) with h | h | h | h
      · exact h0.2 x h
      · exact h1.2 x h
      · exact h2.2 x h
      · exact h3.2 x h
    · exact groupRK_valid rest (fun w hw => hws w (by simp [hw])) k h

theorem keyWords_length (key : List Nat) : (keyWords key).length = 4 * (key.length / 4 + 7) := by
  unfold keyWords
  rw [expandWords_length, toWords_length]
  omega

theorem keyWords_valid {key : List Nat} (hlen : 4 ≤ key.length) (hkey : ∀ x ∈ key, x < 256) :
    ∀ w ∈ keyWords key, ValidWord w := by
  apply expandWords_valid
  · omega
  · rw [toWords_length]
  · exact toWords_valid key hkey

theorem encRoundKeys_length (key : List Nat) :
    (encRoundKeys key).length = key.length / 4 + 7 :=
  groupRK_length _ _ (keyWords_length key)

theorem encRoundKeys_valid {key : List Nat} (hlen : 4 ≤ key.length)
    (hkey : ∀ x ∈ key, x < 256) : ValidKeys (encRoundKeys key) :=
  groupRK_valid _ (keyWords_valid hlen hkey)

theorem imcButLast_length : ∀ l : List (List Nat), (imcButLast l).length = l.length
  | [] => rfl
  | [_] => rfl
  | k :: k2 :: rest => by
    show (imcButLast (k2 :: rest)).length + 1 = _
    rw [imcButLast_length (k2 :: rest)]
    rfl

theorem imcButLast_valid : ∀ l : List (List Nat), (∀ k ∈ l, ValidBlock k) →
    ∀ k ∈ imcButLast l, ValidBlock k
  | [], _, k, hk => absurd hk (by simp [imcButLast])
  | [x], hl, k, hk => by
    rcases (by simpa [imcButLast] using hk : k = x) with rfl
    exact hl k (by simp)
  | x :: x2 :: rest, hl, k, hk => by
    rcases (by simpa [imcButLast] using hk :
        k = invMixColumns x ∨ k ∈ imcButLast (x2 :: rest)) with h | h
    · subst h
      exact invMixColumns_valid (hl x (by simp))
    · exact imcButLast_valid (x2 :: rest) (fun y hy => hl y (by simp [hy])) k h

theorem decScheduleOf_length (l : List (List Nat)) :
    (decScheduleOf l).length = l.length := by
  unfold decScheduleOf
  rcases h : l.reverse with _ | ⟨k, rest⟩
  · have : l = [] := by simpa using congrArg List.reverse h
    simp [this]
  · have : l.length = rest.length + 1 := by
      have := congrArg List.length h
      simpa using this
    simp [imcButLast_length, this]

theorem decScheduleOf_valid {l : List (List Nat)} (hl : ValidKeys l) :
    ValidKeys (decScheduleOf l) := by
  unfold decScheduleOf
  rcases h : l.reverse with _ | ⟨k, rest⟩
  · intro x hx
    simp at hx
  · intro x hx
    have hrev : ∀ y ∈ k :: rest, ValidBlock y := by
      intro y hy
      exact hl y (by rw [← List.mem_reverse, h]; exact hy)
    rcases (by simpa using hx : x = k ∨ x ∈ imcButLast rest) with rfl | hx'
    · exact hrev x (by simp)
    · exact imcButLast_valid rest (fun y hy => hrev y (by simp [hy])) x hx'

theorem decRoundKeys_length (key : List Nat) :
    (decRoundKeys key).length = key.length / 4 + 7 := by
  unfold decRoundKeys
  rw [decScheduleOf_length, encRoundKeys_length]

theorem decRoundKeys_valid {key : List Nat} (hlen : 4 ≤ key.length)
    (hkey : ∀ x ∈ key, x < 256) : ValidKeys (decRoundKeys key) :=
  decScheduleOf_valid (encRoundKeys_valid hlen hkey)

theorem encRounds_valid : ∀ ks s, ValidKeys ks → ValidBlock s → ValidBlock (encRounds ks s)
  | [], _, _, hs => hs
  | [k], s, hks, hs =>
    addRoundKey_valid (shiftRows_valid (subBytes_valid hs)) (hks k (by simp))
  | k :: k2 :: rest, s, hks, hs =>
    encRounds_valid (k2 :: rest) _ (fun x hx => hks x (by simp [hx]))
      (addRoundKey_valid (mixColumns_valid (shiftRows_valid (subBytes_valid hs)))
        (hks k (by simp)))

theorem encryptBlock_valid {rks : List (List Nat)} {b : List Nat} (hk : ValidKeys rks)
    (hb : ValidBlock b) : ValidBlock (encryptBlock rks b) := by
  rcases rks with _ | ⟨k0, rest⟩
  · exact hb
  · exact encRounds_valid rest _ (fun x hx => hk x (by simp [hx]))
      (addRoundKey_valid hb (hk k0 (by simp)))

/-- Modelled from the spec: the error taxonomy of the schedule-deriving and
block-transform API (the MoonBit-facing layer is not under src/). -/
inductive AesError
  | InvalidKeySize
  | WrongScheduleOrientation
  | InvalidBlockLength
deriving DecidableEq

/-- Modelled from the spec: a schedule's orientation flavor. -/
inductive Dir
  | enc
  | dec
deriving DecidableEq

/-- Modelled from the spec: a derived round-key schedule records which
orientation it is, the round count Nr, and the `Nr + 1` round keys. -/
structure Schedule where
  dir : Dir
  nr : Nat
  keys : List (List Nat)
deriving DecidableEq

/-- Key lengths 16, 24 and 32 bytes are the valid ones. -/
def validKeyLength (n : Nat) : Prop := n = 16 ∨ n = 24 ∨ n = 32

instance validKeyLength.decPred : DecidablePred validKeyLength := fun n => by
  unfold validKeyLength
  infer_instance

/-- Nr as a function of key length: 16 → 10, 24 → 12, 32 → 14. -/
def nrOfKeyLen (n : Nat) : Nat :=
  if n = 16 then 10 else if n = 24 then 12 else if n = 32 then 14 else 0

/-- Modelled from the spec: `deriveEncryptionSchedule` validates the key
size (failing with InvalidKeySize at derivation time) and returns the
encryption-order schedule tagged with its orientation and Nr. -/
def deriveEncryptionSchedule (key : List Nat) : Except AesError Schedule :=
  if validKeyLength key.length then
    Except.ok ⟨Dir.enc, key.length / 4 + 6, encRoundKeys key⟩
  else Except.error AesError.InvalidKeySize

/-- Modelled from the spec: `deriveDecryptionSchedule`. -/
def deriveDecryptionSchedule (key : List Nat) : Except AesError Schedule :=
  if validKeyLength key.length then
    Except.ok ⟨Dir.dec, key.length / 4 + 6, decRoundKeys key⟩
  else Except.error AesError.InvalidKeySize

/-- Modelled from the spec: block encryption at the API boundary — a block
view that is not exactly 16 bytes is rejected with InvalidBlockLength before
any table lookup, a decryption schedule is rejected with
WrongScheduleOrientation. -/
def encrypt (s : Schedule) (b : List Nat) : Except AesError (List Nat) :=
  if b.length ≠ 16 then Except.error AesError.InvalidBlockLength
  else if s.dir ≠ Dir.enc then Except.error AesError.WrongScheduleOrientation
  else Except.ok (encryptBlock s.keys b)

/-- Modelled from the spec: block decryption at the API boundary. -/
def decrypt (s : Schedule) (b : List Nat) : Except AesError (List Nat) :=
  if b.length ≠ 16 then Except.error AesError.InvalidBlockLength
  else if s.dir ≠ Dir.dec then Except.error AesError.WrongScheduleOrientation
  else Except.ok (decryptBlock s.keys b)

/-- MAXNR of rijndael-alg-fst.h: the largest round count (256-bit keys). -/
def MAXNR : Nat := 14

/-- From src/native/stub.c: `Cooked_key_NR_offset = (4 * (MAXNR + 1)) *
sizeof(u32)` — the fixed offset (240) of the Nr byte in a cooked key. -/
def cookedKeyNrOffset : Nat := 4 * (MAXNR + 1) * 4

/-- From src/native/stub.c: `Cooked_key_size = Cooked_key_NR_offset + 1`. -/
def cookedKeySize : Nat := cookedKeyNrOffset + 1

/-- From src/native/stub.c (`camlpdf_caml_aes_cook_encrypt_key`), with the
word contents modelled from the spec: a zero-initialized buffer of
`Cooked_key_size` bytes whose first `16 * (Nr + 1)` bytes are the round keys
(words serialized most significant byte first; the C stub stores host-endian
u32 words, an order no claim observes), and whose byte at the fixed offset
240 is the Nr returned by the key setup — 10/12/14 for valid key lengths and
0 otherwise. -/
def cookEncryptKey (key : List Nat) : List Nat :=
  ((encRoundKeys key).flatten ++
    List.replicate (cookedKeyNrOffset - (encRoundKeys key).flatten.length) 0) ++
    [nrOfKeyLen key.length]

/-- From src/native/stub.c (`camlpdf_caml_aes_cook_decrypt_key`): as above
with the decryption-order round keys. -/
def cookDecryptKey (key : List Nat) : List Nat :=
  ((decRoundKeys key).flatten ++
    List.replicate (cookedKeyNrOffset - (decRoundKeys key).flatten.length) 0) ++
    [nrOfKeyLen key.length]

/-- The 16-byte block read at `src + src_ofs` by the stub. -/
def loadBlock (src : List Nat) (ofs : Nat) : List Nat :=
  (List.range 16).map (fun i => src.getD (ofs + i) 0)

/-- Sequential byte store at `ofs`, the functional rendering of the stub's
in-place write to `dst + dst_ofs`. -/
def storeBytes (dst : List Nat) (ofs : Nat) : List Nat → List Nat
  | [] => dst
  | b :: rest => storeBytes (dst.set ofs b) (ofs + 1) rest

/-- The round keys a transform reads back from a cooked key; the Nr byte at
the fixed offset determines how many. -/
def rkFromCkey (ckey : List Nat) : List (List Nat) :=
  groupRK (toWords (ckey.take (16 * (ckey.getD cookedKeyNrOffset 0 + 1))))

/-- From src/native/stub.c (`camlpdf_caml_aes_encrypt`): read 16 bytes at
`src + src_ofs`, transform under the cooked key (round count from its Nr
byte), write exactly 16 bytes at `dst + dst_ofs`; `ckey` and `src` are
read-only (const). -/
def camlAesEncrypt (ckey src : List Nat) (srcOfs : Nat) (dst : List Nat)
    (dstOfs : Nat) : List Nat :=
  storeBytes dst dstOfs (encryptBlock (rkFromCkey ckey) (loadBlock src srcOfs))

/-- From src/native/stub.c (`camlpdf_caml_aes_decrypt`). -/
def camlAesDecrypt (ckey src : List Nat) (srcOfs : Nat) (dst : List Nat)
    (dstOfs : Nat) : List Nat :=
  storeBytes dst dstOfs (decryptBlock (rkFromCkey ckey) (loadBlock src srcOfs))

theorem getD_set_ne (l : List Nat) (j a i : Nat) (h : i ≠ j) :
    (l.set j a).getD i 0 = l.getD i 0 := by
  rw [List.getD_eq_getElem?_getD, List.getD_eq_getElem?_getD,
    List.getElem?_set_ne (by omega)]

theorem storeBytes_length : ∀ (bs dst : List Nat) (ofs : Nat),
    (storeBytes dst ofs bs).length = dst.length
  | [], _, _ => rfl
  | b :: rest, dst, ofs => by
    show (storeBytes (dst.set ofs b) (ofs + 1) rest).length = _
    rw [storeBytes_length rest, List.length_set]

theorem storeBytes_outside : ∀ (bs dst : List Nat) (ofs i : Nat),
    i < ofs ∨ ofs + bs.length ≤ i →
    (storeBytes dst ofs bs).getD i 0 = dst.getD i 0
  | [], _, _, _, _ => rfl
  | b :: rest, dst, ofs, i, h => by
    show (storeBytes (dst.set ofs b) (ofs + 1) rest).getD i 0 = _
    rw [storeBytes_outside rest _ _ i (by simp at h; omega),
      getD_set_ne dst ofs b i (by simp at h; omega)]

theorem storeBytes_inside : ∀ (bs dst : List Nat) (ofs j : Nat), j < bs.length →
    ofs + bs.length ≤ dst.length →
    (storeBytes dst ofs bs).getD (ofs + j) 0 = bs.getD j 0
  | [], _, _, j, hj, _ => absurd hj (by simp)
  | b :: rest, dst, ofs, 0, _, hlen => by
    show (storeBytes (dst.set ofs b) (ofs + 1) rest).getD ofs 0 = b
    rw [storeBytes_outside rest _ _ ofs (Or.inl (by omega)),
      List.getD_eq_getElem _ _ (by rw [List.length_set]; simp at hlen; omega),
      List.getElem_set_self]
  | b :: rest, dst, ofs, j + 1, hj, hlen => by
    show (storeBytes (dst.set ofs b) (ofs + 1) rest).getD (ofs + (j + 1)) 0 = rest.getD j 0
    rw [show ofs + (j + 1) = ofs + 1 + j by omega]
    exact storeBytes_inside rest _ _ j (by simpa using hj)
      (by rw [List.length_set]; simp at hlen ⊢; omega)

theorem loadBlock_length (src : List Nat) (ofs : Nat) : (loadBlock src ofs).length = 16 := by
  simp [loadBlock]

theorem toWords_wordLength : ∀ l : List Nat, ∀ w ∈ toWords l, w.length = 4
  | [], w, hw => absurd hw (by simp [toWords])
  | [_], w, hw => absurd hw (by simp [toWords])
  | [_, _], w, hw => absurd hw (by simp [toWords])
  | [_, _, _], w, hw => absurd hw (by simp [toWords])
  | a :: b :: c :: d :: rest, w, hw => by
    rcases (by simpa [toWords] using hw : w = [a, b, c, d] ∨ w ∈ toWords rest) with h | h
    · subst h; rfl
    · exact toWords_wordLength rest w h

theorem groupRK_blockLength : ∀ ws : List (List Nat), (∀ w ∈ ws, w.length = 4) →
    ∀ k ∈ groupRK ws, k.length = 16
  | [], _, k, hk => absurd hk (by simp [groupRK])
  | [_], _, k, hk => absurd hk (by simp [groupRK])
  | [_, _], _, k, hk => absurd hk (by simp [groupRK])
  | [_, _, _], _, k, hk => absurd hk (by simp [groupRK])
  | w0 :: w1 :: w2 :: w3 :: rest, hws, k, hk => by
    rcases (by simpa [groupRK] using hk :
        k = w0 ++ w1 ++ w2 ++ w3 ∨ k ∈ groupRK rest) with h | h
    · subst h
      simp [hws w0 (by simp), hws w1 (by simp), hws w2 (by simp), hws w3 (by simp)]
    · exact groupRK_blockLength rest (fun w hw => hws w (by simp [hw])) k h

theorem rkFromCkey_blockLength (ckey : List Nat) : ∀ k ∈ rkFromCkey ckey, k.length = 16 :=
  groupRK_blockLength _ (toWords_wordLength _)

theorem subBytes_len16 {s : List Nat} (h : s.length = 16) : (subBytes s).length = 16 := by
  rw [subBytes_length, h]

theorem addRoundKey_len16 {s k : List Nat} (hs : s.length = 16) (hk : k.length = 16) :
    (addRoundKey s k).length = 16 := addRoundKey_length hs hk

theorem encRounds_len16 : ∀ (ks : List (List Nat)) (s : List Nat),
    (∀ k ∈ ks, k.length = 16) → s.length = 16 → (encRounds ks s).length = 16
  | [], _, _, hs => hs
  | [k], s, hks, hs =>
    addRoundKey_len16 (by rw [shiftRows_length]) (hks k (by simp))
  | k :: k2 :: rest, s, hks, hs =>
    encRounds_len16 (k2 :: rest) _ (fun x hx => hks x (by simp [hx]))
      (addRoundKey_len16 (by simp [mixColumns]) (hks k (by simp)))

theorem decRounds_len16 : ∀ (ks : List (List Nat)) (s : List Nat),
    (∀ k ∈ ks, k.length = 16) → s.length = 16 → (decRounds ks s).length = 16
  | [], _, _, hs => hs
  | [k], s, hks, hs =>
    addRoundKey_len16 (by simp [invSubBytes, invShiftRows_length]) (hks k (by simp))
  | k :: k2 :: rest, s, hks, hs =>
    decRounds_len16 (k2 :: rest) _ (fun x hx => hks x (by simp [hx]))
      (addRoundKey_len16 (by simp [invMixColumns]) (hks k (by simp)))

theorem encryptBlock_len16 {rks : List (List Nat)} {b : List Nat}
    (hk : ∀ k ∈ rks, k.length = 16) (hb : b.length = 16) :
    (encryptBlock rks b).length = 16 := by
  rcases rks with _ | ⟨k0, rest⟩
  · exact hb
  · exact encRounds_len16 rest _ (fun x hx => hk x (by simp [hx]))
      (addRoundKey_len16 hb (hk k0 (by simp)))

theorem decryptBlock_len16 {rks : List (List Nat)} {b : List Nat}
    (hk : ∀ k ∈ rks, k.length = 16) (hb : b.length = 16) :
    (decryptBlock rks b).length = 16 := by
  rcases rks with _ | ⟨k0, rest⟩
  · exact hb
  · exact decRounds_len16 rest _ (fun x hx => hk x (by simp [hx]))
      (addRoundKey_len16 hb (hk k0 (by simp)))

theorem getD_append_len {α : Type} : ∀ (l : List α) (x d : α), (l ++ [x]).getD l.length d = x
  | [], _, _ => rfl
  | _ :: l, x, d => getD_append_len l x d

theorem flatten_length16 : ∀ l : List (List Nat), (∀ k ∈ l, k.length = 16) →
    l.flatten.length = 16 * l.length
  | [], _ => rfl
  | k :: rest, hl => by
    show (k ++ rest.flatten).length = _
    rw [List.length_append, hl k (by simp),
      flatten_length16 rest (fun x hx => hl x (by simp [hx])), List.length_cons]
    ring

theorem encFull_append : ∀ (ks : List (List Nat)) (k s : List Nat),
    encFull (ks ++ [k]) s = addRoundKey (mixColumns (shiftRows (subBytes (encFull ks s)))) k
  | [], _, _ => rfl
  | a :: ks, k, _ => encFull_append ks k _

/-- Written from the words of claim C5: the state after the initial
AddRoundKey and rounds `1 .. n`, each round being SubBytes, ShiftRows,
MixColumns, AddRoundKey with that round's key, taken from the schedule by
index. -/
def specRounds (rks : List (List Nat)) : Nat → List Nat → List Nat
  | 0, s => s
  | n + 1, s =>
    addRoundKey (mixColumns (shiftRows (subBytes (specRounds rks n s)))) (rks.getD (n + 1) [])

/-- Written from the words of claim C5: AddRoundKey with round key 0, rounds
`1 .. Nr - 1`, then the final round `Nr` — SubBytes, ShiftRows, AddRoundKey
with round key `Nr`, MixColumns skipped — on the flat column-major state. -/
def encryptSpec (nr : Nat) (rks : List (List Nat)) (b : List Nat) : List Nat :=
  addRoundKey
    (shiftRows (subBytes (specRounds rks (nr - 1) (addRoundKey b (rks.getD 0 [])))))
    (rks.getD nr [])

theorem specRounds_encFull : ∀ (mid rks : List (List Nat)) (s : List Nat),
    (∀ i, i < mid.length → rks.getD (i + 1) [] = mid.getD i []) →
    specRounds rks mid.length s = encFull mid s := by
  intro mid
  induction mid using List.reverseRecOn with
  | nil => intro rks s _; rfl
  | append_singleton mid k ih =>
    intro rks s h
    rw [show (mid ++ [k]).length = mid.length + 1 by simp]
    show addRoundKey (mixColumns (shiftRows (subBytes (specRounds rks mid.length s))))
      (rks.getD (mid.length + 1) []) = _
    rw [encFull_append,
      ih rks s (fun i hi => by
        rw [h i (by simp; omega), List.getD_append mid [k] [] i hi]),
      h mid.length (by simp), getD_append_len]

/-- Claim C1: for every valid key (16, 24 or 32 bytes) and every 16-byte
block `b`, decrypting with the decryption schedule derived from the key the
result of encrypting `b` with the encryption schedule derived from the same
key succeeds and returns `b`. -/
theorem claim_C1_roundtrip (key b : List Nat)
    (hkey : validKeyLength key.length ∧ ∀ x ∈ key, x < 256) (hb : ValidBlock b) :
    ∃ es ds c, deriveEncryptionSchedule key = Except.ok es ∧
      deriveDecryptionSchedule key = Except.ok ds ∧
      encrypt es b = Except.ok c ∧ decrypt ds c = Except.ok b := by
  have hlen4 : 4 ≤ key.length := by
    rcases hkey.1 with h | h | h <;> omega
  have hvk : ValidKeys (encRoundKeys key) := encRoundKeys_valid hlen4 hkey.2
  have hc : ValidBlock (encryptBlock (encRoundKeys key) b) := encryptBlock_valid hvk hb
  refine ⟨⟨Dir.enc, key.length / 4 + 6, encRoundKeys key⟩,
    ⟨Dir.dec, key.length / 4 + 6, decRoundKeys key⟩, encryptBlock (encRoundKeys key) b,
    ?_, ?_, ?_, ?_⟩
  · rw [deriveEncryptionSchedule, if_pos hkey.1]
  · rw [deriveDecryptionSchedule, if_pos hkey.1]
  · rw [encrypt, if_neg (show ¬ b.length ≠ 16 by simp [hb.1]), if_neg (by simp)]
  · rw [decrypt, if_neg (show ¬ (encryptBlock (encRoundKeys key) b).length ≠ 16 by simp [hc.1]),
      if_neg (by simp)]
    show Except.ok (decryptBlock (decRoundKeys key) (encryptBlock (encRoundKeys key) b)) =
      Except.ok b
    unfold decRoundKeys
    rw [decryptBlock_encryptBlock (encRoundKeys key) b hvk hb
      (by rw [encRoundKeys_length]; omega)]

/-- Witness for C1 at the all-zero 16-byte key and all-zero block. -/
theorem claim_C1_roundtrip_witness :
    (validKeyLength (List.replicate 16 0).length ∧ ∀ x ∈ List.replicate 16 0, x < 256) ∧
    ValidBlock (List.replicate 16 0) ∧
    ∃ es ds c, deriveEncryptionSchedule (List.replicate 16 0) = Except.ok es ∧
      deriveDecryptionSchedule (List.replicate 16 0) = Except.ok ds ∧
      encrypt es (List.replicate 16 0) = Except.ok c ∧
      decrypt ds c = Except.ok (List.replicate 16 0) :=
  ⟨⟨by decide, by decide⟩, ⟨by decide, by decide⟩,
    claim_C1_roundtrip (List.replicate 16 0) (List.replicate 16 0)
      ⟨by decide, by decide⟩ ⟨by decide, by decide⟩⟩

/-- Claim C3: schedule derivation (both orientations) fails with
InvalidKeySize exactly when the key length is not 16, 24 or 32 bytes, and
succeeds exactly when it is. -/
theorem claim_C3_invalid_key_size (key : List Nat) :
    (deriveEncryptionSchedule key = Except.error AesError.InvalidKeySize ↔
      ¬ validKeyLength key.length) ∧
    (deriveDecryptionSchedule key = Except.error AesError.InvalidKeySize ↔
      ¬ validKeyLength key.length) ∧
    ((∃ s, deriveEncryptionSchedule key = Except.ok s) ↔ validKeyLength key.length) ∧
    ((∃ s, deriveDecryptionSchedule key = Except.ok s) ↔ validKeyLength key.length) := by
  unfold deriveEncryptionSchedule deriveDecryptionSchedule
  by_cases h : validKeyLength key.length <;> simp [h]

/-- Claim C7: a derived schedule records its orientation, and passing an
encryption schedule to decrypt, or a decryption schedule to encrypt, is
surfaced as WrongScheduleOrientation. -/
theorem claim_C7_orientation (key b : List Nat) (hkey : validKeyLength key.length)
    (hb : b.length = 16) :
    ∃ es ds, deriveEncryptionSchedule key = Except.ok es ∧
      deriveDecryptionSchedule key = Except.ok ds ∧
      es.dir = Dir.enc ∧ ds.dir = Dir.dec ∧
      decrypt es b = Except.error AesError.WrongScheduleOrientation ∧
      encrypt ds b = Except.error AesError.WrongScheduleOrientation := by
  refine ⟨⟨Dir.enc, key.length / 4 + 6, encRoundKeys key⟩,
    ⟨Dir.dec, key.length / 4 + 6, decRoundKeys key⟩, ?_, ?_, rfl, rfl, ?_, ?_⟩
  · rw [deriveEncryptionSchedule, if_pos hkey]
  · rw [deriveDecryptionSchedule, if_pos hkey]
  · rw [decrypt, if_neg (show ¬ b.length ≠ 16 by simp [hb]),
      if_pos (show Dir.enc ≠ Dir.dec by decide)]
  · rw [encrypt, if_neg (show ¬ b.length ≠ 16 by simp [hb]),
      if_pos (show Dir.dec ≠ Dir.enc by decide)]

/-- Witness for C7 at the all-zero 16-byte key and all-zero block. -/
theorem claim_C7_orientation_witness :
    validKeyLength (List.replicate 16 0).length ∧ (List.replicate 16 0).length = 16 ∧
    ∃ es ds, deriveEncryptionSchedule (List.replicate 16 0) = Except.ok es ∧
      deriveDecryptionSchedule (List.replicate 16 0) = Except.ok ds ∧
      es.dir = Dir.enc ∧ ds.dir = Dir.dec ∧
      decrypt es (List.replicate 16 0) = Except.error AesError.WrongScheduleOrientation ∧
      encrypt ds (List.replicate 16 0) = Except.error AesError.WrongScheduleOrientation :=
  ⟨by decide, by decide,
    claim_C7_orientation (List.replicate 16 0) (List.replicate 16 0) (by decide) (by decide)⟩

/-- Claim C8: all operations are deterministic pure functions of their
inputs — equal inputs give byte-identical schedules and outputs; in this
functional embedding the property holds by construction. -/
theorem claim_C8_determinism :
    ∀ (key key' : List Nat) (s s' : Schedule) (b b' : List Nat),
      key = key' → s = s' → b = b' →
      deriveEncryptionSchedule key = deriveEncryptionSchedule key' ∧
      deriveDecryptionSchedule key = deriveDecryptionSchedule key' ∧
      cookEncryptKey key = cookEncryptKey key' ∧
      cookDecryptKey key = cookDecryptKey key' ∧
      encrypt s b = encrypt s' b' ∧
      decrypt s b = decrypt s' b' := by
  intro key key' s s' b b' h1 h2 h3
  subst h1
  subst h2
  subst h3
  exact ⟨rfl, rfl, rfl, rfl, rfl, rfl⟩

/-- Witness for C8 at concrete equal inputs. -/
theorem claim_C8_determinism_witness :
    ([] : List Nat) = [] ∧ (⟨Dir.enc, 0, []⟩ : Schedule) = ⟨Dir.enc, 0, []⟩ ∧
    ([] : List Nat) = [] ∧
    (deriveEncryptionSchedule [] = deriveEncryptionSchedule [] ∧
      deriveDecryptionSchedule [] = deriveDecryptionSchedule [] ∧
      cookEncryptKey [] = cookEncryptKey [] ∧
      cookDecryptKey [] = cookDecryptKey [] ∧
      encrypt ⟨Dir.enc, 0, []⟩ [] = encrypt ⟨Dir.enc, 0, []⟩ [] ∧
      decrypt ⟨Dir.enc, 0, []⟩ [] = decrypt ⟨Dir.enc, 0, []⟩ []) :=
  ⟨rfl, rfl, rfl, claim_C8_determinism [] [] ⟨Dir.enc, 0, []⟩ ⟨Dir.enc, 0, []⟩ [] [] rfl rfl rfl⟩

/-- Claim C9: a block view that is not exactly 16 bytes is rejected with
InvalidBlockLength by both transforms, before any table lookup — in this
model the error is returned with no part of the cipher evaluated. -/
theorem claim_C9_block_length (s : Schedule) (b : List Nat) (hb : b.length ≠ 16) :
    encrypt s b = Except.error AesError.InvalidBlockLength ∧
    decrypt s b = Except.error AesError.InvalidBlockLength := by
  unfold encrypt decrypt
  rw [if_pos hb, if_pos hb]
  exact ⟨rfl, rfl⟩

/-- Witness for C9 at a 15-byte block. -/
theorem claim_C9_block_length_witness :
    (List.replicate 15 0).length ≠ 16 ∧
    (encrypt ⟨Dir.enc, 10, []⟩ (List.replicate 15 0) =
      Except.error AesError.InvalidBlockLength ∧
    decrypt ⟨Dir.enc, 10, []⟩ (List.replicate 15 0) =
      Except.error AesError.InvalidBlockLength) :=
  ⟨by decide, claim_C9_block_length ⟨Dir.enc, 10, []⟩ (List.replicate 15 0) (by decide)⟩

/-- Claim C2: the schedule derived from the all-zero key encrypts the
all-zero 16-byte block to the published AES known-answer ciphertexts for
128-, 192- and 256-bit keys. -/
theorem claim_C2_known_answer_vectors :
    Except.bind (deriveEncryptionSchedule (List.replicate 16 0))
        (fun s => encrypt s (List.replicate 16 0)) =
      Except.ok [0x66, 0xe9, 0x4b, 0xd4, 0xef, 0x8a, 0x2c, 0x3b,
        0x88, 0x4c, 0xfa, 0x59, 0xca, 0x34, 0x2b, 0x2e] ∧
    Except.bind (deriveEncryptionSchedule (List.replicate 24 0))
        (fun s => encrypt s (List.replicate 16 0)) =
      Except.ok [0xaa, 0xe0, 0x69, 0x92, 0xac, 0xbf, 0x52, 0xa3,
        0xe8, 0xf4, 0xa9, 0x6e, 0xc9, 0x30, 0x0b, 0xd7] ∧
    Except.bind (deriveEncryptionSchedule (List.replicate 32 0))
        (fun s => encrypt s (List.replicate 16 0)) =
      Except.ok [0xdc, 0x95, 0xc0, 0x78, 0xa2, 0x40, 0x89, 0x89,
        0xad, 0x48, 0xa2, 0x14, 0x92, 0x84, 0x20, 0x87] :=
  ⟨rfl, rfl, rfl⟩

theorem nrOfKeyLen_cases {n : Nat} (h : validKeyLength n) :
    nrOfKeyLen n = 10 ∨ nrOfKeyLen n = 12 ∨ nrOfKeyLen n = 14 := by
  rcases h with h | h | h <;> subst h <;> decide

theorem encRoundKeys_flatten_length (key : List Nat) (hkey : validKeyLength key.length)
    (hbytes : ∀ x ∈ key, x < 256) :
    (encRoundKeys key).flatten.length = 16 * (nrOfKeyLen key.length + 1) := by
  have hlen4 : 4 ≤ key.length := by rcases hkey with h | h | h <;> omega
  rw [flatten_length16 _ (fun k hk => (encRoundKeys_valid hlen4 hbytes k hk).1),
    encRoundKeys_length]
  rcases hkey with h | h | h <;> rw [h] <;> decide

theorem decRoundKeys_flatten_length (key : List Nat) (hkey : validKeyLength key.length)
    (hbytes : ∀ x ∈ key, x < 256) :
    (decRoundKeys key).flatten.length = 16 * (nrOfKeyLen key.length + 1) := by
  have hlen4 : 4 ≤ key.length := by rcases hkey with h | h | h <;> omega
  rw [flatten_length16 _ (fun k hk => (decRoundKeys_valid hlen4 hbytes k hk).1),
    decRoundKeys_length]
  rcases hkey with h | h | h <;> rw [h] <;> decide

theorem cookEncryptKey_getD_nr (key : List Nat) (hkey : validKeyLength key.length)
    (hbytes : ∀ x ∈ key, x < 256) :
    (cookEncryptKey key).getD cookedKeyNrOffset 0 = nrOfKeyLen key.length := by
  have hb := encRoundKeys_flatten_length key hkey hbytes
  have hle : 16 * (nrOfKeyLen key.length + 1) ≤ cookedKeyNrOffset := by
    rcases nrOfKeyLen_cases hkey with h | h | h <;> rw [h] <;> decide
  have h240 : ((encRoundKeys key).flatten ++
      List.replicate (cookedKeyNrOffset - (encRoundKeys key).flatten.length) 0).length =
      cookedKeyNrOffset := by
    rw [List.length_append, List.length_replicate, hb]
    omega
  have hget := getD_append_len
    ((encRoundKeys key).flatten ++
      List.replicate (cookedKeyNrOffset - (encRoundKeys key).flatten.length) 0)
    (nrOfKeyLen key.length) 0
  rw [h240] at hget
  exact hget

theorem cookDecryptKey_getD_nr (key : List Nat) (hkey : validKeyLength key.length)
    (hbytes : ∀ x ∈ key, x < 256) :
    (cookDecryptKey key).getD cookedKeyNrOffset 0 = nrOfKeyLen key.length := by
  have hb := decRoundKeys_flatten_length key hkey hbytes
  have hle : 16 * (nrOfKeyLen key.length + 1) ≤ cookedKeyNrOffset := by
    rcases nrOfKeyLen_cases hkey with h | h | h <;> rw [h] <;> decide
  have h240 : ((decRoundKeys key).flatten ++
      List.replicate (cookedKeyNrOffset - (decRoundKeys key).flatten.length) 0).length =
      cookedKeyNrOffset := by
    rw [List.length_append, List.length_replicate, hb]
    omega
  have hget := getD_append_len
    ((decRoundKeys key).flatten ++
      List.replicate (cookedKeyNrOffset - (decRoundKeys key).flatten.length) 0)
    (nrOfKeyLen key.length) 0
  rw [h240] at hget
  exact hget

/-- Claim C4: for every valid key the round count recorded in the derived
schedule is determined by the key length — 16 → 10, 24 → 12, 32 → 14 — the
schedule holds exactly Nr+1 round keys, and the cooked buffers of the C stub
carry that same Nr in their trailing byte. -/
theorem claim_C4_round_count (key : List Nat) (hkey : validKeyLength key.length)
    (hbytes : ∀ x ∈ key, x < 256) :
    ∃ es ds, deriveEncryptionSchedule key = Except.ok es ∧
      deriveDecryptionSchedule key = Except.ok ds ∧
      es.nr = nrOfKeyLen key.length ∧ ds.nr = nrOfKeyLen key.length ∧
      (key.length = 16 → es.nr = 10) ∧ (key.length = 24 → es.nr = 12) ∧
      (key.length = 32 → es.nr = 14) ∧
      es.keys.length = es.nr + 1 ∧ ds.keys.length = ds.nr + 1 ∧
      (cookEncryptKey key).getD cookedKeyNrOffset 0 = nrOfKeyLen key.length ∧
      (cookDecryptKey key).getD cookedKeyNrOffset 0 = nrOfKeyLen key.length := by
  have hnr : key.length / 4 + 6 = nrOfKeyLen key.length := by
    rcases hkey with h | h | h <;> rw [h] <;> decide
  refine ⟨⟨Dir.enc, key.length / 4 + 6, encRoundKeys key⟩,
    ⟨Dir.dec, key.length / 4 + 6, decRoundKeys key⟩,
    by rw [deriveEncryptionSchedule, if_pos hkey],
    by rw [deriveDecryptionSchedule, if_pos hkey],
    hnr, hnr, ?_, ?_, ?_, ?_, ?_,
    cookEncryptKey_getD_nr key hkey hbytes, cookDecryptKey_getD_nr key hkey hbytes⟩
  · intro h
    rw [show Schedule.nr ⟨Dir.enc, key.length / 4 + 6, encRoundKeys key⟩ =
      key.length / 4 + 6 from rfl, h]
  · intro h
    rw [show Schedule.nr ⟨Dir.enc, key.length / 4 + 6, encRoundKeys key⟩ =
      key.length / 4 + 6 from rfl, h]
  · intro h
    rw [show Schedule.nr ⟨Dir.enc, key.length / 4 + 6, encRoundKeys key⟩ =
      key.length / 4 + 6 from rfl, h]
  · show (encRoundKeys key).length = key.length / 4 + 6 + 1
    rw [encRoundKeys_length]
  · show (decRoundKeys key).length = key.length / 4 + 6 + 1
    rw [decRoundKeys_length]

/-- Witness for C4 at the all-zero 24-byte key. -/
theorem claim_C4_round_count_witness :
    validKeyLength (List.replicate 24 0).length ∧ (∀ x ∈ List.replicate 24 0, x < 256) ∧
    ∃ es ds, deriveEncryptionSchedule (List.replicate 24 0) = Except.ok es ∧
      deriveDecryptionSchedule (List.replicate 24 0) = Except.ok ds ∧
      es.nr = nrOfKeyLen (List.replicate 24 0).length ∧
      ds.nr = nrOfKeyLen (List.replicate 24 0).length ∧
      ((List.replicate 24 (0 : Nat)).length = 16 → es.nr = 10) ∧
      ((List.replicate 24 (0 : Nat)).length = 24 → es.nr = 12) ∧
      ((List.replicate 24 (0 : Nat)).length = 32 → es.nr = 14) ∧
      es.keys.length = es.nr + 1 ∧ ds.keys.length = ds.nr + 1 ∧
      (cookEncryptKey (List.replicate 24 0)).getD cookedKeyNrOffset 0 =
        nrOfKeyLen (List.replicate 24 0).length ∧
      (cookDecryptKey (List.replicate 24 0)).getD cookedKeyNrOffset 0 =
        nrOfKeyLen (List.replicate 24 0).length :=
  ⟨by decide, by decide, claim_C4_round_count (List.replicate 24 0) (by decide) (by decide)⟩

/-- Claim C5: block encryption computes exactly the round structure stated
by the specification — AddRoundKey with key 0; for each round `1 .. Nr-1`
SubBytes, ShiftRows, MixColumns, AddRoundKey; final round SubBytes,
ShiftRows, AddRoundKey with key Nr, MixColumns skipped — here as the
equality of the recursive transform with the index-driven `encryptSpec`
written from the claim's words. -/
theorem claim_C5_round_structure (nr : Nat) (rks : List (List Nat)) (b : List Nat)
    (hlen : rks.length = nr + 1) (hnr : 1 ≤ nr) :
    encryptBlock rks b = encryptSpec nr rks b := by
  obtain ⟨m, rfl⟩ : ∃ m, nr = m + 1 := ⟨nr - 1, by omega⟩
  rcases rks with _ | ⟨k0, rest⟩
  · simp at hlen
  have hrest : rest ≠ [] := by
    intro h
    subst h
    simp at hlen
  obtain ⟨mid, klast, rfl⟩ : ∃ mid klast, rest = mid ++ [klast] :=
    ⟨rest.dropLast, rest.getLast hrest, (List.dropLast_append_getLast hrest).symm⟩
  have hmidlen : mid.length = m := by
    simp at hlen
    omega
  rw [show encryptBlock (k0 :: (mid ++ [klast])) b =
      encRounds (mid ++ [klast]) (addRoundKey b k0) from rfl,
    encRounds_append]
  unfold encryptSpec
  rw [show (k0 :: (mid ++ [klast])).getD 0 [] = k0 from rfl,
    show (k0 :: (mid ++ [klast])).getD (m + 1) [] = (mid ++ [klast]).getD m [] from rfl,
    ← hmidlen, getD_append_len,
    show mid.length + 1 - 1 = mid.length from rfl,
    specRounds_encFull mid (k0 :: (mid ++ [klast])) (addRoundKey b k0) (fun i hi => by
      rw [show (k0 :: (mid ++ [klast])).getD (i + 1) [] = (mid ++ [klast]).getD i [] from rfl,
        List.getD_append mid [klast] [] i hi])]

/-- Witness for C5 at a two-key schedule of zero round keys. -/
theorem claim_C5_round_structure_witness :
    ([List.replicate 16 0, List.replicate 16 0] : List (List Nat)).length = 1 + 1 ∧
    1 ≤ 1 ∧
    encryptBlock [List.replicate 16 0, List.replicate 16 0] (List.replicate 16 0) =
      encryptSpec 1 [List.replicate 16 0, List.replicate 16 0] (List.replicate 16 0) :=
  ⟨by decide, by decide,
    claim_C5_round_structure 1 [List.replicate 16 0, List.replicate 16 0]
      (List.replicate 16 0) (by decide) (by decide)⟩

/-- Counterexample to claim C6 as stated: for the all-zero 16-byte key the
cooked buffer is not the densely packed round keys immediately followed by
the Nr byte — 64 zero padding bytes sit between them, because the Nr byte
lives at the fixed offset 240 of a fixed 241-byte buffer. -/
theorem claim_C6_counterexample :
    cookEncryptKey (List.replicate 16 0) ≠
      (encRoundKeys (List.replicate 16 0)).flatten ++
        [nrOfKeyLen (List.replicate 16 0).length] := by
  decide

/-- Claim C6 as amended: for every valid key the cooked buffer is the Nr+1
round keys of 16 bytes each densely packed at the start, zero padding up to
the fixed offset 240, and the trailing byte holding Nr; only for 32-byte
keys (Nr = 14) does the Nr byte immediately follow the round keys. -/
theorem claim_C6_serialized_layout (key : List Nat) (hkey : validKeyLength key.length)
    (hbytes : ∀ x ∈ key, x < 256) :
    cookEncryptKey key =
      ((encRoundKeys key).flatten ++
        List.replicate (cookedKeyNrOffset - 16 * (nrOfKeyLen key.length + 1)) 0) ++
        [nrOfKeyLen key.length] ∧
    (encRoundKeys key).flatten.length = 16 * (nrOfKeyLen key.length + 1) ∧
    (encRoundKeys key).length = nrOfKeyLen key.length + 1 ∧
    cookDecryptKey key =
      ((decRoundKeys key).flatten ++
        List.replicate (cookedKeyNrOffset - 16 * (nrOfKeyLen key.length + 1)) 0) ++
        [nrOfKeyLen key.length] ∧
    (cookEncryptKey key).length = cookedKeySize ∧
    (cookDecryptKey key).length = cookedKeySize ∧
    (key.length = 32 →
      cookEncryptKey key = (encRoundKeys key).flatten ++ [nrOfKeyLen key.length]) := by
  have hbE := encRoundKeys_flatten_length key hkey hbytes
  have hbD := decRoundKeys_flatten_length key hkey hbytes
  have hle : 16 * (nrOfKeyLen key.length + 1) ≤ cookedKeyNrOffset := by
    rcases nrOfKeyLen_cases hkey with h | h | h <;> rw [h] <;> decide
  have hoff : cookedKeyNrOffset = 240 := rfl
  rw [hoff] at hle
  refine ⟨?_, hbE, ?_, ?_, ?_, ?_, ?_⟩
  · unfold cookEncryptKey
    rw [hbE]
  · rw [encRoundKeys_length]
    rcases hkey with h | h | h <;> rw [h] <;> decide
  · unfold cookDecryptKey
    rw [hbD]
  · unfold cookEncryptKey cookedKeySize
    simp only [List.length_append, List.length_replicate, List.length_cons,
      List.length_nil, hbE, hoff]
    omega
  · unfold cookDecryptKey cookedKeySize
    simp only [List.length_append, List.length_replicate, List.length_cons,
      List.length_nil, hbD, hoff]
    omega
  · intro h32
    have hnr14 : nrOfKeyLen key.length = 14 := by rw [h32]; decide
    unfold cookEncryptKey
    rw [hbE, hnr14, show cookedKeyNrOffset - 16 * (14 + 1) = 0 from rfl]
    simp

/-- Witness for the amended C6 at the all-zero 32-byte key. -/
theorem claim_C6_serialized_layout_witness :
    validKeyLength (List.replicate 32 0).length ∧ (∀ x ∈ List.replicate 32 0, x < 256) ∧
    (cookEncryptKey (List.replicate 32 0) =
      ((encRoundKeys (List.replicate 32 0)).flatten ++
        List.replicate (cookedKeyNrOffset - 16 * (nrOfKeyLen (List.replicate 32 0).length + 1)) 0) ++
        [nrOfKeyLen (List.replicate 32 0).length] ∧
    (encRoundKeys (List.replicate 32 0)).flatten.length =
      16 * (nrOfKeyLen (List.replicate 32 0).length + 1) ∧
    (encRoundKeys (List.replicate 32 0)).length = nrOfKeyLen (List.replicate 32 0).length + 1 ∧
    cookDecryptKey (List.replicate 32 0) =
      ((decRoundKeys (List.replicate 32 0)).flatten ++
        List.replicate (cookedKeyNrOffset - 16 * (nrOfKeyLen (List.replicate 32 0).length + 1)) 0) ++
        [nrOfKeyLen (List.replicate 32 0).length] ∧
    (cookEncryptKey (List.replicate 32 0)).length = cookedKeySize ∧
    (cookDecryptKey (List.replicate 32 0)).length = cookedKeySize ∧
    ((List.replicate 32 (0 : Nat)).length = 32 →
      cookEncryptKey (List.replicate 32 0) =
        (encRoundKeys (List.replicate 32 0)).flatten ++
          [nrOfKeyLen (List.replicate 32 0).length])) :=
  ⟨by decide, by decide,
    claim_C6_serialized_layout (List.replicate 32 0) (by decide) (by decide)⟩

/-- Claim C10: a call to the stub's encrypt or decrypt with in-bounds
offsets writes exactly the 16 bytes of dst starting at dst_ofs — they
become the transform of the 16 source bytes — and every other byte of dst
is unchanged (ckey and src are read-only inputs of this functional
rendering and cannot change). -/
theorem claim_C10_frame (ckey src : List Nat) (srcOfs : Nat) (dst : List Nat)
    (dstOfs : Nat) (hdst : dstOfs + 16 ≤ dst.length) :
    ((camlAesEncrypt ckey src srcOfs dst dstOfs).length = dst.length ∧
      (∀ i, i < dstOfs ∨ dstOfs + 16 ≤ i →
        (camlAesEncrypt ckey src srcOfs dst dstOfs).getD i 0 = dst.getD i 0) ∧
      (∀ j, j < 16 → (camlAesEncrypt ckey src srcOfs dst dstOfs).getD (dstOfs + j) 0 =
        (encryptBlock (rkFromCkey ckey) (loadBlock src srcOfs)).getD j 0)) ∧
    ((camlAesDecrypt ckey src srcOfs dst dstOfs).length = dst.length ∧
      (∀ i, i < dstOfs ∨ dstOfs + 16 ≤ i →
        (camlAesDecrypt ckey src srcOfs dst dstOfs).getD i 0 = dst.getD i 0) ∧
      (∀ j, j < 16 → (camlAesDecrypt ckey src srcOfs dst dstOfs).getD (dstOfs + j) 0 =
        (decryptBlock (rkFromCkey ckey) (loadBlock src srcOfs)).getD j 0)) := by
  have hE : (encryptBlock (rkFromCkey ckey) (loadBlock src srcOfs)).length = 16 :=
    encryptBlock_len16 (rkFromCkey_blockLength ckey) (loadBlock_length src srcOfs)
  have hD : (decryptBlock (rkFromCkey ckey) (loadBlock src srcOfs)).length = 16 :=
    decryptBlock_len16 (rkFromCkey_blockLength ckey) (loadBlock_length src srcOfs)
  refine ⟨⟨storeBytes_length _ _ _, ?_, ?_⟩, ⟨storeBytes_length _ _ _, ?_, ?_⟩⟩
  · intro i hi
    apply storeBytes_outside
    rcases hi with h | h
    · exact Or.inl h
    · exact Or.inr (by rw [hE]; exact h)
  · intro j hj
    apply storeBytes_inside
    · rw [hE]
      exact hj
    · rw [hE]
      exact hdst
  · intro i hi
    apply storeBytes_outside
    rcases hi with h | h
    · exact Or.inl h
    · exact Or.inr (by rw [hD]; exact h)
  · intro j hj
    apply storeBytes_inside
    · rw [hD]
      exact hj
    · rw [hD]
      exact hdst

/-- Witness for C10 at a 20-byte destination with offset 2. -/
theorem claim_C10_frame_witness :
    2 + 16 ≤ (List.replicate 20 (0 : Nat)).length ∧
    (((camlAesEncrypt (List.replicate 241 0) (List.replicate 16 0) 0 (List.replicate 20 0) 2).length =
        (List.replicate 20 (0 : Nat)).length ∧
      (∀ i, i < 2 ∨ 2 + 16 ≤ i →
        (camlAesEncrypt (List.replicate 241 0) (List.replicate 16 0) 0 (List.replicate 20 0) 2).getD i 0 =
          (List.replicate 20 (0 : Nat)).getD i 0) ∧
      (∀ j, j < 16 →
        (camlAesEncrypt (List.replicate 241 0) (List.replicate 16 0) 0 (List.replicate 20 0) 2).getD (2 + j) 0 =
          (encryptBlock (rkFromCkey (List.replicate 241 0)) (loadBlock (List.replicate 16 0) 0)).getD j 0)) ∧
    ((camlAesDecrypt (List.replicate 241 0) (List.replicate 16 0) 0 (List.replicate 20 0) 2).length =
        (List.replicate 20 (0 : Nat)).length ∧
      (∀ i, i < 2 ∨ 2 + 16 ≤ i →
        (camlAesDecrypt (List.replicate 241 0) (List.replicate 16 0) 0 (List.replicate 20 0) 2).getD i 0 =
          (List.replicate 20 (0 : Nat)).getD i 0) ∧
      (∀ j, j < 16 →
        (camlAesDecrypt (List.replicate 241 0) (List.replicate 16 0) 0 (List.replicate 20 0) 2).getD (2 + j) 0 =
          (decryptBlock (rkFromCkey (List.replicate 241 0)) (loadBlock (List.replicate 16 0) 0)).getD j 0))) :=
  ⟨by decide,
    claim_C10_frame (List.replicate 241 0) (List.replicate 16 0) 0 (List.replicate 20 0) 2
      (by decide)⟩

end Rijndael
